import Mathlib

/-!
Verification of the Swagger 2.0 to OpenAPI 3.0 fixture converter
(`convert_fixtures.py`).

The script manipulates parsed JSON/YAML documents: arbitrarily nested
trees of mappings with string keys, sequences, and scalars.  We model a
parsed document by the inductive type `Doc`; Python dicts become
association lists that keep insertion order, matching the iteration and
insertion-order semantics the script relies on.  Python string
`replace` becomes `replaceL` over `List Char` (all non-overlapping
occurrences, scanned left to right); Python truthiness becomes
`pyTruthy`; a raised exception becomes the `Except.error` case, with
the error message standing in for the exception text.
-/

set_option autoImplicit false

namespace OpenapiConv

/-- A parsed JSON/YAML value, as handled by the script.  Numbers are
modelled by `Int` (none of the converted structure depends on numeric
values).  `obj` keeps fields in insertion order, like a Python dict. -/
inductive Doc where
  | str  (s : String)
  | num  (n : Int)
  | bool (b : Bool)
  | null
  | arr  (items : List Doc)
  | obj  (fields : List (String × Doc))
deriving Repr

/-! ### Structural equality of documents

Python `==` on parsed documents is deep structural equality; `docEq`
implements it and is proved to coincide with `Eq`, which also gives a
`DecidableEq` instance for `Doc`. -/

mutual
def docEq : Doc → Doc → Bool
  | .str a, .str b => a == b
  | .num a, .num b => a == b
  | .bool a, .bool b => a == b
  | .null, .null => true
  | .arr a, .arr b => docEqList a b
  | .obj a, .obj b => docEqFields a b
  | _, _ => false
termination_by structural d => d

def docEqList : List Doc → List Doc → Bool
  | [], [] => true
  | a :: as, b :: bs => docEq a b && docEqList as bs
  | _, _ => false
termination_by structural l => l

def docEqFields : List (String × Doc) → List (String × Doc) → Bool
  | [], [] => true
  | (k, a) :: as, (l, b) :: bs => k == l && docEq a b && docEqFields as bs
  | _, _ => false
termination_by structural l => l
end

mutual
theorem docEq_iff : ∀ a b : Doc, docEq a b = true ↔ a = b
  | .str a, .str b => by simp [docEq]
  | .num a, .num b => by simp [docEq]
  | .bool a, .bool b => by simp [docEq]
  | .null, .null => by simp [docEq]
  | .arr a, .arr b => by
      simp only [docEq, docEqList_iff a b]
      exact ⟨fun h => by rw [h], fun h => by cases h; rfl⟩
  | .obj a, .obj b => by
      simp only [docEq, docEqFields_iff a b]
      exact ⟨fun h => by rw [h], fun h => by cases h; rfl⟩
  | .str _, .num _ => by simp [docEq]
  | .str _, .bool _ => by simp [docEq]
  | .str _, .null => by simp [docEq]
  | .str _, .arr _ => by simp [docEq]
  | .str _, .obj _ => by simp [docEq]
  | .num _, .str _ => by simp [docEq]
  | .num _, .bool _ => by simp [docEq]
  | .num _, .null => by simp [docEq]
  | .num _, .arr _ => by simp [docEq]
  | .num _, .obj _ => by simp [docEq]
  | .bool _, .str _ => by simp [docEq]
  | .bool _, .num _ => by simp [docEq]
  | .bool _, .null => by simp [docEq]
  | .bool _, .arr _ => by simp [docEq]
  | .bool _, .obj _ => by simp [docEq]
  | .null, .str _ => by simp [docEq]
  | .null, .num _ => by simp [docEq]
  | .null, .bool _ => by simp [docEq]
  | .null, .arr _ => by simp [docEq]
  | .null, .obj _ => by simp [docEq]
  | .arr _, .str _ => by simp [docEq]
  | .arr _, .num _ => by simp [docEq]
  | .arr _, .bool _ => by simp [docEq]
  | .arr _, .null => by simp [docEq]
  | .arr _, .obj _ => by simp [docEq]
  | .obj _, .str _ => by simp [docEq]
  | .obj _, .num _ => by simp [docEq]
  | .obj _, .bool _ => by simp [docEq]
  | .obj _, .null => by simp [docEq]
  | .obj _, .arr _ => by simp [docEq]
termination_by structural a => a

theorem docEqList_iff : ∀ a b : List Doc, docEqList a b = true ↔ a = b
  | [], [] => by simp [docEqList]
  | [], _ :: _ => by simp [docEqList]
  | _ :: _, [] => by simp [docEqList]
  | a :: as, b :: bs => by
      simp [docEqList, docEq_iff a b, docEqList_iff as bs]
termination_by structural l => l

theorem docEqFields_iff : ∀ a b : List (String × Doc), docEqFields a b = true ↔ a = b
  | [], [] => by simp [docEqFields]
  | [], _ :: _ => by simp [docEqFields]
  | _ :: _, [] => by simp [docEqFields]
  | (k, a) :: as, (l, b) :: bs => by
      simp [docEqFields, docEq_iff a b, docEqFields_iff as bs, and_assoc]
termination_by structural l => l
end

instance : DecidableEq Doc := fun a b => decidable_of_iff _ (docEq_iff a b)

/-! ### Dict primitives -/

/-- First value stored under `key`, like a Python dict lookup (keys of a
parsed document are unique). -/
def lookupKey : List (String × Doc) → String → Option Doc
  | [], _ => none
  | (k, v) :: rest, key => if k = key then some v else lookupKey rest key

/-- Python `key in dict`. -/
def hasKey (fs : List (String × Doc)) (key : String) : Bool :=
  (lookupKey fs key).isSome

/-! ### Python string replacement

`replaceL p r s` replaces every non-overlapping occurrence of `p` in
`s` by `r`, scanning left to right: the semantics of Python
`str.replace` for a non-empty pattern.  (The script only replaces
non-empty patterns; for `p = []` this is the identity.)  It is defined
through the fuel-indexed `replaceGo` so that it is structurally
recursive and reduces inside the kernel; `replaceL_cons` recovers the
natural recursion. -/

/-- Boolean prefix test on character lists. -/
def pfx : List Char → List Char → Bool
  | [], _ => true
  | _ :: _, [] => false
  | a :: p, b :: s => (a == b) && pfx p s

/-- Boolean substring-occurrence test: does `p` occur somewhere in `s`? -/
def occursB (p : List Char) : List Char → Bool
  | [] => pfx p []
  | s@(_ :: rest) => pfx p s || occursB p rest

def replaceGo (p r : List Char) : Nat → List Char → List Char
  | _, [] => []
  | 0, s => s
  | fuel + 1, c :: rest =>
    if p ≠ [] ∧ pfx p (c :: rest) = true then
      r ++ replaceGo p r fuel ((c :: rest).drop p.length)
    else
      c :: replaceGo p r fuel rest

def replaceL (p r s : List Char) : List Char := replaceGo p r s.length s

theorem replaceGo_congr (p r : List Char) :
    ∀ f₁ f₂ s, s.length ≤ f₁ → s.length ≤ f₂ →
      replaceGo p r f₁ s = replaceGo p r f₂ s := by
  intro f₁
  induction f₁ with
  | zero =>
    intro f₂ s h₁ _
    have : s = [] := List.length_eq_zero.mp (Nat.le_zero.mp h₁)
    subst this
    cases f₂ <;> rfl
  | succ n ih =>
    intro f₂ s h₁ h₂
    cases s with
    | nil => cases f₂ <;> rfl
    | cons c rest =>
      cases f₂ with
      | zero => exact absurd h₂ (by simp)
      | succ m =>
        have hr₁ : rest.length ≤ n := by
          simp only [List.length_cons] at h₁; omega
        have hr₂ : rest.length ≤ m := by
          simp only [List.length_cons] at h₂; omega
        simp only [replaceGo]
        by_cases hc : p ≠ [] ∧ pfx p (c :: rest) = true
        · simp only [if_pos hc]
          have hp : 0 < p.length := List.length_pos.mpr hc.1
          have hd : ((c :: rest).drop p.length).length ≤ rest.length := by
            simp only [List.length_drop, List.length_cons]
            omega
          rw [ih m _ (le_trans hd hr₁) (le_trans hd hr₂)]
        · simp only [if_neg hc]
          rw [ih m rest hr₁ hr₂]

@[simp] theorem replaceL_nil (p r : List Char) : replaceL p r [] = [] := rfl

theorem replaceL_cons (p r : List Char) (c : Char) (rest : List Char) :
    replaceL p r (c :: rest) =
      if p ≠ [] ∧ pfx p (c :: rest) = true then
        r ++ replaceL p r ((c :: rest).drop p.length)
      else
        c :: replaceL p r rest := by
  show replaceGo p r (rest.length + 1) (c :: rest) = _
  simp only [replaceGo, replaceL]
  by_cases hc : p ≠ [] ∧ pfx p (c :: rest) = true
  · simp only [if_pos hc]
    have hp : 0 < p.length := List.length_pos.mpr hc.1
    rw [replaceGo_congr p r rest.length ((c :: rest).drop p.length).length _ (by
      simp only [List.length_drop, List.length_cons]; omega) (le_refl _)]
  · simp only [if_neg hc]

/-- Python `s.replace(p, r)` on the `String` wrapper. -/
def pyReplace (s p r : String) : String := ⟨replaceL p.data r.data s.data⟩

/-- The three substitutions of `convert_ref` (lines 20-22 of the
script), applied to a string in source order. -/
def convertRefStr (s : String) : String :=
  pyReplace
    (pyReplace
      (pyReplace s "#/definitions/" "#/components/schemas/")
      "#/parameters/" "#/components/parameters/")
    "#/responses/" "#/components/responses/"

/-! ### Python value primitives -/

/-- Python truthiness of a parsed value (`if not ref_string`,
`if not data`, `if servers`, `if components`). -/
def pyTruthy : Doc → Bool
  | .str s => s != ""
  | .num n => n != 0
  | .bool b => b
  | .null => false
  | .arr items => !items.isEmpty
  | .obj fields => !fields.isEmpty

/-- The single-quote character, used by the Python `repr` of strings. -/
def sq : String := String.singleton (Char.ofNat 39)

/-! `pyRepr` renders a value the way Python `repr` does inside
f-strings for containers (modulo escaping inside string literals, which
the script never depends on); `pyStr` is Python `str`, which agrees
with `repr` except on strings themselves. -/

mutual
def pyRepr : Doc → String
  | .str s => sq ++ s ++ sq
  | .num n => toString n
  | .bool b => if b then "True" else "False"
  | .null => "None"
  | .arr items => "[" ++ pyReprList items ++ "]"
  | .obj fields => "\x7b" ++ pyReprFields fields ++ "\x7d"
termination_by structural d => d

def pyReprList : List Doc → String
  | [] => ""
  | [d] => pyRepr d
  | d :: rest => pyRepr d ++ ", " ++ pyReprList rest
termination_by structural l => l

def pyReprFields : List (String × Doc) → String
  | [] => ""
  | [(k, v)] => sq ++ k ++ sq ++ ": " ++ pyRepr v
  | (k, v) :: rest => sq ++ k ++ sq ++ ": " ++ pyRepr v ++ ", " ++ pyReprFields rest
termination_by structural l => l
end

/-- Python `str` of a parsed value, as used by the f-string on
line 75. -/
def pyStr : Doc → String
  | .str s => s
  | d => pyRepr d

/-- Python iteration (`for scheme in schemes`): lists yield their
items, strings their characters (as one-character strings), dicts
their keys; other values raise `TypeError`. -/
def pyIter : Doc → Except String (List Doc)
  | .arr items => .ok items
  | .str s => .ok (s.data.map fun c => .str (String.singleton c))
  | .obj fields => .ok (fields.map fun p => .str p.1)
  | _ => .error "TypeError"

/-! ### The converter -/

/-- `convert_ref` (lines 14-24).  The script receives the value stored
under `$ref`, returns it unchanged when it is falsy, and otherwise
calls `.replace` on it three times, which raises `AttributeError` when
the value is not a string. -/
def convert_ref (v : Doc) : Except String Doc :=
  if pyTruthy v = false then .ok v
  else
    match v with
    | .str s => .ok (.str (convertRefStr s))
    | _ => .error "AttributeError"

/-! `convert_schema_refs` (lines 27-36) rewrites, in place, the value
under every `$ref` key of every mapping, at any depth.  The pure model
returns the rewritten document.  The source first reassigns
`obj["$ref"] = convert_ref(obj["$ref"])` and then recurses into every
value of the (updated) dict, including the freshly rewritten `$ref`
value; that extra visit is a no-op, because a successful `convert_ref`
returns either a string or an unchanged falsy value, on which the
traversal does nothing (lemma `convert_schema_refs_fix` below).  The
model therefore applies the rewritten value directly at the `$ref`
entry while recursing into all other entries, which yields the same
result and the same error behaviour: a failing `convert_ref` aborts
before any recursion, exactly as the exception does on line 31. -/

mutual
def convert_schema_refs : Doc → Except String Doc
  | .obj fs =>
    match lookupKey fs "$ref" with
    | some v =>
      match convert_ref v with
      | .error e => .error e
      | .ok v' =>
        match csrFields (some v') fs with
        | .error e => .error e
        | .ok fs' => .ok (.obj fs')
    | none =>
      match csrFields none fs with
      | .error e => .error e
      | .ok fs' => .ok (.obj fs')
  | .arr items =>
    match csrList items with
    | .error e => .error e
    | .ok items' => .ok (.arr items')
  | d => .ok d
termination_by structural d => d

def csrFields (rv : Option Doc) : List (String × Doc) → Except String (List (String × Doc))
  | [] => .ok []
  | (k, v) :: rest =>
    match (match rv with
           | some w => if k = "$ref" then Except.ok w else convert_schema_refs v
           | none => convert_schema_refs v) with
    | .error e => .error e
    | .ok v' =>
      match csrFields rv rest with
      | .error e => .error e
      | .ok rest' => .ok ((k, v') :: rest')
termination_by structural l => l

def csrList : List Doc → Except String (List Doc)
  | [] => .ok []
  | d :: rest =>
    match convert_schema_refs d with
    | .error e => .error e
    | .ok d' =>
      match csrList rest with
      | .error e => .error e
      | .ok rest' => .ok (d' :: rest')
termination_by structural l => l
end

/-- One optional verbatim copy (`if key in spec: new_spec[key] = spec[key]`,
lines 59-66 and 103-104). -/
def copyField (fs : List (String × Doc)) (key : String) : List (String × Doc) :=
  match lookupKey fs key with
  | some v => [(key, v)]
  | none => []

/-- One optional renamed copy (lines 84-97). -/
def copyFieldAs (fs : List (String × Doc)) (src dst : String) : List (String × Doc) :=
  match lookupKey fs src with
  | some v => [(dst, v)]
  | none => []

/-- The default `info` object (line 55). -/
def default_info : Doc := .obj [("title", .str "API"), ("version", .str "1.0.0")]

/-- The f-string of line 75. -/
def serverUrl (scheme host basePath : Doc) : String :=
  pyStr scheme ++ "://" ++ pyStr host ++ pyStr basePath

/-- The `servers` list built on lines 69-75: empty when none of the
trigger keys is present, otherwise one entry per element of `schemes`
(defaults: `schemes = ["http"]`, `host = "localhost"`,
`basePath = ""`). -/
def serversOf (fs : List (String × Doc)) : Except String (List Doc) :=
  if hasKey fs "host" || hasKey fs "basePath" || hasKey fs "schemes" then
    let schemes := (lookupKey fs "schemes").getD (.arr [.str "http"])
    let host := (lookupKey fs "host").getD (.str "localhost")
    let basePath := (lookupKey fs "basePath").getD (.str "")
    match pyIter schemes with
    | .error e => .error e
    | .ok items => .ok (items.map fun sc => .obj [("url", .str (serverUrl sc host basePath))])
  else .ok []

/-- The `components` dict built on lines 81-97, in source order. -/
def componentsOf (fs : List (String × Doc)) : List (String × Doc) :=
  copyFieldAs fs "definitions" "schemas" ++
  copyFieldAs fs "parameters" "parameters" ++
  copyFieldAs fs "responses" "responses" ++
  copyFieldAs fs "securityDefinitions" "securitySchemes"

/-- Python `key.startswith(pre)`, expressed through the executable
prefix test on character lists. -/
def pyStartsWith (s pre : String) : Bool := pfx pre.data s.data

/-- The extension copy of lines 107-109: every top-level key starting
with `x-`, in input iteration order. -/
def xFields (fs : List (String × Doc)) : List (String × Doc) :=
  fs.filter fun p => pyStartsWith p.1 "x-"

/-- The `new_spec` dict as assembled on lines 53-109, before the final
`convert_schema_refs` pass, given the already-built `servers` list.
Python dict insertion order makes it a concatenation in source
order. -/
def preSpec (fs : List (String × Doc)) (servers : List Doc) : List (String × Doc) :=
  [("openapi", Doc.str "3.0.0"),
   ("info", (lookupKey fs "info").getD default_info)]
  ++ copyField fs "externalDocs"
  ++ copyField fs "tags"
  ++ copyField fs "security"
  ++ (if servers.isEmpty then [] else [("servers", Doc.arr servers)])
  ++ (let comps := componentsOf fs
      if comps.isEmpty then [] else [("components", Doc.obj comps)])
  ++ copyField fs "paths"
  ++ xFields fs

/-- `convert_spec` (lines 39-114). -/
def convert_spec (spec : Doc) : Except String Doc :=
  match spec with
  | .obj fs =>
    if hasKey fs "openapi" then .ok spec
    else if !hasKey fs "swagger" then .ok spec
    else
      match serversOf fs with
      | .error e => .error e
      | .ok servers => convert_schema_refs (.obj (preSpec fs servers))
  | d => .ok d

/-! ### Basic prefix and occurrence lemmas -/

@[simp] theorem pfx_nil_left (s : List Char) : pfx [] s = true := by
  cases s <;> rfl

theorem pfx_nil_right {p : List Char} (h : pfx p [] = true) : p = [] := by
  cases p with
  | nil => rfl
  | cons a q => simp [pfx] at h

theorem pfx_cons_cons {a b : Char} {p s : List Char} :
    pfx (a :: p) (b :: s) = ((a == b) && pfx p s) := rfl

theorem pfx_length {p s : List Char} (h : pfx p s = true) : p.length ≤ s.length := by
  induction p generalizing s with
  | nil => simp
  | cons a q ih =>
    cases s with
    | nil => simp [pfx] at h
    | cons b t =>
      simp only [pfx_cons_cons, Bool.and_eq_true] at h
      simpa using ih h.2

theorem pfx_refl (p : List Char) : pfx p p = true := by
  induction p with
  | nil => simp
  | cons a q ih => simp [pfx_cons_cons, ih]

theorem pfx_append_self (p t : List Char) : pfx p (p ++ t) = true := by
  induction p with
  | nil => simp
  | cons a q ih => simp [pfx_cons_cons, ih]

/-- A prefix decomposes the list. -/
theorem pfx_decomp {p s : List Char} (h : pfx p s = true) :
    p ++ s.drop p.length = s := by
  induction p generalizing s with
  | nil => simp
  | cons a q ih =>
    cases s with
    | nil => simp [pfx] at h
    | cons b t =>
      simp only [pfx_cons_cons, Bool.and_eq_true, beq_iff_eq] at h
      simp only [List.cons_append, List.length_cons, List.drop_succ_cons, h.1]
      rw [ih h.2]

/-- A prefix test is unaffected by what comes after a sufficiently long
block. -/
theorem pfx_append_of_le {q w x : List Char} (h : q.length ≤ w.length) :
    pfx q (w ++ x) = pfx q w := by
  induction q generalizing w with
  | nil => simp
  | cons a p ih =>
    cases w with
    | nil => simp at h
    | cons b t =>
      simp only [List.length_cons] at h
      simp only [List.cons_append, pfx_cons_cons]
      rw [ih (by omega)]

/-- Two prefixes of a common list are comparable. -/
theorem pfx_or {a b s : List Char} (ha : pfx a s = true) (hb : pfx b s = true) :
    pfx a b = true ∨ pfx b a = true := by
  induction s generalizing a b with
  | nil =>
    rw [pfx_nil_right ha, pfx_nil_right hb]
    simp
  | cons c t ih =>
    cases a with
    | nil => left; simp
    | cons x xs =>
      cases b with
      | nil => right; simp
      | cons y ys =>
        simp only [pfx_cons_cons, Bool.and_eq_true, beq_iff_eq] at ha hb
        rcases ih ha.2 hb.2 with h | h
        · left; simp [pfx_cons_cons, ha.1, hb.1, h]
        · right; simp [pfx_cons_cons, ha.1, hb.1, h]

/-- If `p` can see `w ++ t`, then `p` and `w` are comparable. -/
theorem pfx_compat {p w t : List Char} (h : pfx p (w ++ t) = true) :
    pfx p w = true ∨ pfx w p = true := by
  induction p generalizing w with
  | nil => left; simp
  | cons a q ih =>
    cases w with
    | nil => right; simp
    | cons b u =>
      simp only [List.cons_append, pfx_cons_cons, Bool.and_eq_true, beq_iff_eq] at h
      rcases ih h.2 with hw | hw
      · left; simp [pfx_cons_cons, h.1, hw]
      · right; simp [pfx_cons_cons, h.1, hw]

theorem pfx_eq_of_le {p w : List Char} (h : pfx p w = true)
    (hl : w.length ≤ p.length) : p = w := by
  induction p generalizing w with
  | nil =>
    cases w with
    | nil => rfl
    | cons b u => simp at hl
  | cons a q ih =>
    cases w with
    | nil => simp [pfx] at h
    | cons b u =>
      simp only [pfx_cons_cons, Bool.and_eq_true, beq_iff_eq] at h
      simp only [List.length_cons] at hl
      rw [h.1, ih h.2 (by omega)]

@[simp] theorem occursB_nil (p : List Char) : occursB p [] = pfx p [] := rfl

theorem occursB_cons (p : List Char) (c : Char) (rest : List Char) :
    occursB p (c :: rest) = (pfx p (c :: rest) || occursB p rest) := rfl

theorem occursB_of_pfx {p s : List Char} (h : pfx p s = true) :
    occursB p s = true := by
  cases s with
  | nil => rw [occursB_nil, h]
  | cons c rest => simp [occursB_cons, h]

theorem occursB_self {p : List Char} : occursB p p = true :=
  occursB_of_pfx (pfx_refl p)

/-- Occurrences survive removal of a leading block: contrapositive form. -/
theorem occursB_drop_false {p s : List Char} (h : occursB p s = false) (k : Nat) :
    occursB p (s.drop k) = false := by
  induction s generalizing k with
  | nil => simpa using h
  | cons c rest ih =>
    cases k with
    | zero => simpa using h
    | succ m =>
      simp only [List.drop_succ_cons]
      rw [occursB_cons, Bool.or_eq_false_iff] at h
      exact ih h.2 m

/-- Concatenation introduces no occurrence when none starts inside the
first block and none lies in the second. -/
theorem occursB_append_false {q u x : List Char}
    (hu : ∀ i, i < u.length → pfx q (u.drop i ++ x) = false)
    (hx : occursB q x = false) :
    occursB q (u ++ x) = false := by
  induction u with
  | nil => simpa using hx
  | cons c t ih =>
    rw [List.cons_append, occursB_cons, Bool.or_eq_false_iff]
    constructor
    · have := hu 0 (by simp)
      simpa using this
    · refine ih fun i hi => ?_
      have := hu (i + 1) (by simpa using Nat.succ_lt_succ hi)
      simpa using this

/-! ### Replacement lemmas for marker-headed patterns

Every pattern and every replacement string used by `convert_ref` starts
with the marker character `#` and contains it nowhere else.  Under
those conditions a replacement pass removes every occurrence of its own
pattern, creates no occurrence of any marker-headed pattern, and two
passes with incomparable patterns commute. -/

theorem drop_step {l : List Char} {j : Nat} {d : Char} {ds : List Char}
    (h : l.drop j = d :: ds) : l.drop (j + 1) = ds := by
  have h1 : l.drop (j + 1) = (l.drop j).drop 1 := by
    rw [List.drop_drop, Nat.add_comm]
  rw [h1, h, List.drop_one, List.tail_cons]

theorem drop_ne_nil_of_lt {l : List Char} {i : Nat} (h : i < l.length) :
    l.drop i ≠ [] := by
  intro hnil
  have := List.drop_eq_nil_iff.mp hnil
  omega

theorem replaceL_pos {p r s : List Char} (hp : p ≠ []) (h : pfx p s = true) :
    replaceL p r s = r ++ replaceL p r (s.drop p.length) := by
  cases s with
  | nil => exact absurd (pfx_nil_right h) hp
  | cons c rest => rw [replaceL_cons, if_pos ⟨hp, h⟩]

theorem replaceL_neg {p r : List Char} {c : Char} {rest : List Char}
    (h : pfx p (c :: rest) = false) :
    replaceL p r (c :: rest) = c :: replaceL p r rest := by
  rw [replaceL_cons, if_neg]
  rintro ⟨-, h'⟩
  rw [h] at h'
  exact Bool.false_ne_true h'

/-- Matching a tail of a marker-headed pattern through a replaced
string reflects to the original string: the replacement blocks start
with the marker, which the tail never contains. -/
theorem pfx_drop_reflect {h0 : Char} {q qt p r rt : List Char}
    (hq : q = h0 :: qt) (hqt : ∀ c ∈ qt, c ≠ h0) (hr : r = h0 :: rt) :
    ∀ s j, 1 ≤ j → pfx (q.drop j) (replaceL p r s) = true →
      pfx (q.drop j) s = true := by
  suffices H : ∀ n s, s.length ≤ n → ∀ j, 1 ≤ j →
      pfx (q.drop j) (replaceL p r s) = true → pfx (q.drop j) s = true by
    intro s j hj h
    exact H s.length s (le_refl _) j hj h
  intro n
  induction n with
  | zero =>
    intro s hs j hj h
    have : s = [] := List.length_eq_zero.mp (Nat.le_zero.mp hs)
    subst this
    exact h
  | succ n ih =>
    intro s hs j hj h
    cases s with
    | nil => exact h
    | cons c rest =>
      have hrest : rest.length ≤ n := by
        simp only [List.length_cons] at hs; omega
      cases hdrop : q.drop j with
      | nil => simp [hdrop]
      | cons d ds =>
        have hd : d ∈ qt := by
          obtain ⟨m, rfl⟩ : ∃ m, j = m + 1 := ⟨j - 1, by omega⟩
          have : q.drop (m + 1) = qt.drop m := by rw [hq, List.drop_succ_cons]
          rw [this] at hdrop
          exact List.drop_subset m qt (hdrop ▸ List.mem_cons_self d ds)
        have hdne : (d == h0) = false := beq_eq_false_iff_ne.mpr (hqt d hd)
        by_cases hc : p ≠ [] ∧ pfx p (c :: rest) = true
        · rw [replaceL_cons, if_pos hc] at h
          simp only [hdrop, hr, List.cons_append, pfx_cons_cons, hdne,
            Bool.false_and] at h
          exact absurd h (by simp)
        · have hcf : pfx p (c :: rest) = false ∨ p = [] := by
            by_cases hpn : p = []
            · right; exact hpn
            · left
              cases hval : pfx p (c :: rest)
              · rfl
              · exact absurd ⟨hpn, hval⟩ hc
          have hstep : replaceL p r (c :: rest) = c :: replaceL p r rest := by
            rcases hcf with h' | h'
            · exact replaceL_neg h'
            · subst h'
              rw [replaceL_cons, if_neg (by simp)]
          rw [hstep] at h
          simp only [hdrop, pfx_cons_cons, Bool.and_eq_true] at h
          have hds : pfx ds rest = true := by
            have h2 := ih rest hrest (j + 1) (by omega)
            rw [drop_step hdrop] at h2
            exact h2 h.2
          simp only [hdrop, pfx_cons_cons, h.1, hds, Bool.and_self]

/-- No marker-headed pattern `q` can match starting strictly inside a
marker-headed block `w` that does not contain `q`, whatever follows. -/
theorem block_no_pfx {h0 : Char} {q qt w wt : List Char}
    (hq : q = h0 :: qt) (hw : w = h0 :: wt) (hwt : ∀ c ∈ wt, c ≠ h0)
    (hocc : occursB q w = false) (hlen : q.length ≤ w.length) :
    ∀ (x : List Char) i, i < w.length → pfx q (w.drop i ++ x) = false := by
  intro x i hi
  cases i with
  | zero =>
    simp only [List.drop_zero]
    rw [pfx_append_of_le hlen]
    cases hval : pfx q w
    · rfl
    · exact absurd (occursB_of_pfx hval) (by simp [hocc])
  | succ m =>
    have hdw : w.drop (m + 1) = wt.drop m := by rw [hw, List.drop_succ_cons]
    have hmlt : m < wt.length := by
      rw [hw] at hi; simp only [List.length_cons] at hi; omega
    cases hdrop : wt.drop m with
    | nil => exact absurd hdrop (drop_ne_nil_of_lt hmlt)
    | cons d ds =>
      have hd : d ∈ wt := List.drop_subset m wt (hdrop ▸ List.mem_cons_self d ds)
      have hdne : (h0 == d) = false := beq_eq_false_iff_ne.mpr (Ne.symm (hwt d hd))
      rw [hdw, hdrop, hq]
      simp [pfx_cons_cons, hdne]

/-- Inside a block whose characters all avoid the marker, no
marker-headed pattern matches in either direction. -/
theorem tail_block {h0 : Char} {q qt u : List Char}
    (hq : q = h0 :: qt) (hu : ∀ c ∈ u, c ≠ h0) :
    ∀ i, i < u.length → pfx q (u.drop i) = false ∧ pfx (u.drop i) q = false := by
  intro i hi
  cases hdrop : u.drop i with
  | nil => exact absurd hdrop (drop_ne_nil_of_lt hi)
  | cons d ds =>
    have hd : d ∈ u := List.drop_subset i u (hdrop ▸ List.mem_cons_self d ds)
    have h1 : (h0 == d) = false := beq_eq_false_iff_ne.mpr (Ne.symm (hu d hd))
    have h2 : (d == h0) = false := beq_eq_false_iff_ne.mpr (hu d hd)
    constructor
    · rw [hq]; simp [pfx_cons_cons, h1]
    · rw [hq]; simp [pfx_cons_cons, h2]

/-- Block-skip conditions: a pattern `q` that does not occur in a
marker-headed block `w` at least as long as `q` matches nowhere inside
it, in either direction. -/
theorem block_skip {h0 : Char} {q qt w wt : List Char}
    (hq : q = h0 :: qt) (hw : w = h0 :: wt) (hwt : ∀ c ∈ wt, c ≠ h0)
    (hocc : occursB q w = false) (hlen : q.length ≤ w.length) :
    ∀ i, i < w.length → pfx q (w.drop i) = false ∧ pfx (w.drop i) q = false := by
  intro i hi
  cases i with
  | zero =>
    simp only [List.drop_zero]
    constructor
    · cases hval : pfx q w
      · rfl
      · exact absurd (occursB_of_pfx hval) (by simp [hocc])
    · cases hval : pfx w q
      · rfl
      · exfalso
        have := pfx_eq_of_le hval hlen
        rw [this] at hocc
        rw [occursB_self] at hocc
        exact Bool.true_eq_false.mp hocc
  | succ m =>
    have hdw : w.drop (m + 1) = wt.drop m := by rw [hw, List.drop_succ_cons]
    have hmlt : m < wt.length := by
      rw [hw] at hi; simp only [List.length_cons] at hi; omega
    rw [hdw]
    exact tail_block hq hwt m hmlt

/-- A replacement pass leaves no occurrence of its own marker-headed
pattern behind. -/
theorem occursB_replaceL_self {h0 : Char} {p pt r rt : List Char}
    (hp : p = h0 :: pt) (hpt : ∀ c ∈ pt, c ≠ h0)
    (hr : r = h0 :: rt) (hrt : ∀ c ∈ rt, c ≠ h0)
    (hocc : occursB p r = false) (hlen : p.length ≤ r.length) :
    ∀ s, occursB p (replaceL p r s) = false := by
  suffices H : ∀ n s, s.length ≤ n → occursB p (replaceL p r s) = false by
    intro s; exact H s.length s (le_refl _)
  intro n
  induction n with
  | zero =>
    intro s hs
    have : s = [] := List.length_eq_zero.mp (Nat.le_zero.mp hs)
    subst this
    simp [occursB_nil, hp, pfx]
  | succ n ih =>
    intro s hs
    cases s with
    | nil => simp [occursB_nil, hp, pfx]
    | cons c rest =>
      have hrest : rest.length ≤ n := by
        simp only [List.length_cons] at hs; omega
      by_cases hc : p ≠ [] ∧ pfx p (c :: rest) = true
      · rw [replaceL_cons, if_pos hc]
        have hdl : ((c :: rest).drop p.length).length ≤ n := by
          have : 0 < p.length := List.length_pos.mpr hc.1
          simp only [List.length_drop, List.length_cons]
          omega
        exact occursB_append_false
          (fun i hi => block_no_pfx hp hr hrt hocc hlen _ i hi)
          (ih _ hdl)
      · have hpn : p ≠ [] := by rw [hp]; simp
        have hpf : pfx p (c :: rest) = false := by
          cases hval : pfx p (c :: rest)
          · rfl
          · exact absurd ⟨hpn, hval⟩ hc
        rw [replaceL_neg hpf, occursB_cons, Bool.or_eq_false_iff]
        refine ⟨?_, ih rest hrest⟩
        cases hval : pfx p (c :: replaceL p r rest)
        · rfl
        · exfalso
          rw [hp, pfx_cons_cons, Bool.and_eq_true] at hval
          obtain ⟨hch, htail⟩ := hval
          have hpt1 : pfx ((h0 :: pt).drop 1) (replaceL (h0 :: pt) r rest) = true := by
            simpa using htail
          have hres := pfx_drop_reflect (q := h0 :: pt) (p := h0 :: pt)
            rfl hpt hr rest 1 (le_refl 1) hpt1
          simp only [List.drop_succ_cons, List.drop_zero] at hres
          have hcon : pfx p (c :: rest) = true := by
            rw [hp, pfx_cons_cons, hch, hres, Bool.true_and]
          rw [hcon] at hpf
          exact Bool.true_eq_false.mp hpf

/-- A replacement pass whose block is marker-headed cannot create an
occurrence of another marker-headed pattern `q`. -/
theorem occursB_replaceL_preserve {h0 : Char} {q qt p r rt : List Char}
    (hq : q = h0 :: qt) (hqt : ∀ c ∈ qt, c ≠ h0)
    (hr : r = h0 :: rt) (hrt : ∀ c ∈ rt, c ≠ h0)
    (hocc : occursB q r = false) (hlen : q.length ≤ r.length) :
    ∀ s, occursB q s = false → occursB q (replaceL p r s) = false := by
  suffices H : ∀ n s, s.length ≤ n → occursB q s = false →
      occursB q (replaceL p r s) = false by
    intro s; exact H s.length s (le_refl _)
  intro n
  induction n with
  | zero =>
    intro s hs h
    have : s = [] := List.length_eq_zero.mp (Nat.le_zero.mp hs)
    subst this
    exact h
  | succ n ih =>
    intro s hs h
    cases s with
    | nil => exact h
    | cons c rest =>
      have hrest : rest.length ≤ n := by
        simp only [List.length_cons] at hs; omega
      rw [occursB_cons, Bool.or_eq_false_iff] at h
      by_cases hc : p ≠ [] ∧ pfx p (c :: rest) = true
      · rw [replaceL_cons, if_pos hc]
        have hdl : ((c :: rest).drop p.length).length ≤ n := by
          have : 0 < p.length := List.length_pos.mpr hc.1
          simp only [List.length_drop, List.length_cons]
          omega
        have hdocc : occursB q ((c :: rest).drop p.length) = false :=
          occursB_drop_false (by rw [occursB_cons, Bool.or_eq_false_iff]; exact h) _
        exact occursB_append_false
          (fun i hi => block_no_pfx hq hr hrt hocc hlen _ i hi)
          (ih _ hdl hdocc)
      · have hstep : replaceL p r (c :: rest) = c :: replaceL p r rest := by
          by_cases hpn : p = []
          · subst hpn; rw [replaceL_cons, if_neg (by simp)]
          · have hpf : pfx p (c :: rest) = false := by
              cases hval : pfx p (c :: rest)
              · rfl
              · exact absurd ⟨hpn, hval⟩ hc
            exact replaceL_neg hpf
        rw [hstep, occursB_cons, Bool.or_eq_false_iff]
        refine ⟨?_, ih rest hrest h.2⟩
        cases hval : pfx q (c :: replaceL p r rest)
        · rfl
        · exfalso
          rw [hq, pfx_cons_cons, Bool.and_eq_true] at hval
          obtain ⟨hch, htail⟩ := hval
          have hqt1 : pfx ((h0 :: qt).drop 1) (replaceL p r rest) = true := by
            simpa using htail
          have hres := pfx_drop_reflect (q := h0 :: qt)
            rfl hqt hr rest 1 (le_refl 1) hqt1
          simp only [List.drop_succ_cons, List.drop_zero] at hres
          have hcon : pfx q (c :: rest) = true := by
            rw [hq, pfx_cons_cons, hch, hres, Bool.true_and]
          rw [hcon] at h
          exact Bool.true_eq_false.mp h.1

/-- Replacement is the identity on strings without an occurrence of the
pattern. -/
theorem replaceL_of_not_occursB {p r : List Char} :
    ∀ {s}, occursB p s = false → replaceL p r s = s := by
  intro s
  induction s with
  | nil => intro _; rfl
  | cons c rest ih =>
    intro h
    rw [occursB_cons, Bool.or_eq_false_iff] at h
    rw [replaceL_neg h.1, ih h.2]

/-- Replacement walks through a block in which the pattern matches
nowhere (in either direction). -/
theorem replaceL_append_skip {p r : List Char} :
    ∀ {u t}, (∀ i, i < u.length → pfx p (u.drop i) = false ∧ pfx (u.drop i) p = false) →
      replaceL p r (u ++ t) = u ++ replaceL p r t := by
  intro u
  induction u with
  | nil => intro t _; rfl
  | cons c u' ih =>
    intro t hu
    have h0' := hu 0 (by simp)
    simp only [List.drop_zero] at h0'
    have hpf : pfx p ((c :: u') ++ t) = false := by
      cases hval : pfx p ((c :: u') ++ t)
      · rfl
      · rcases pfx_compat hval with h' | h'
        · rw [h'] at h0'; exact absurd h0'.1 (by simp)
        · rw [h'] at h0'; exact absurd h0'.2 (by simp)
    rw [List.cons_append, replaceL_neg (by rw [← List.cons_append]; exact hpf)]
    rw [ih fun i hi => by
      have := hu (i + 1) (by simpa using Nat.succ_lt_succ hi)
      simpa using this]
    simp [List.cons_append]

/-- One-sided step of the commutation argument: `p1` matches at the
head of `s` (and `p2` does not). -/
theorem replaceL_comm_one {h0 : Char} {p1 t1 r1 u1 p2 r2 : List Char}
    (hp1 : p1 = h0 :: t1) (ht1 : ∀ c ∈ t1, c ≠ h0)
    (hp2 : ∃ t2, p2 = h0 :: t2)
    (hr1 : r1 = h0 :: u1) (hu1 : ∀ c ∈ u1, c ≠ h0)
    (hocc21 : occursB p2 r1 = false) (hlen21 : p2.length ≤ r1.length)
    {s : List Char}
    (ih : ∀ t, t.length < s.length →
      replaceL p2 r2 (replaceL p1 r1 t) = replaceL p1 r1 (replaceL p2 r2 t))
    (hm : pfx p1 s = true) (hm2 : pfx p2 s = false) :
    replaceL p2 r2 (replaceL p1 r1 s) = replaceL p1 r1 (replaceL p2 r2 s) := by
  obtain ⟨t2, hp2⟩ := hp2
  have hp1n : p1 ≠ [] := by rw [hp1]; simp
  have hslen : p1.length ≤ s.length := pfx_length hm
  have hlt : (s.drop p1.length).length < s.length := by
    have : 0 < p1.length := by rw [hp1]; simp
    simp only [List.length_drop]
    omega
  have hdecomp : p1 ++ s.drop p1.length = s := pfx_decomp hm
  have hskip_r1 : ∀ i, i < r1.length →
      pfx p2 (r1.drop i) = false ∧ pfx (r1.drop i) p2 = false :=
    block_skip hp2 hr1 hu1 hocc21 hlen21
  have hskip_t1 : ∀ i, i < t1.length →
      pfx p2 (t1.drop i) = false ∧ pfx (t1.drop i) p2 = false :=
    tail_block hp2 ht1
  -- left-hand side
  have lhs : replaceL p2 r2 (replaceL p1 r1 s) =
      r1 ++ replaceL p1 r1 (replaceL p2 r2 (s.drop p1.length)) := by
    rw [replaceL_pos hp1n hm, replaceL_append_skip hskip_r1,
      ih _ hlt]
  -- right-hand side
  have rhs : replaceL p2 r2 s = p1 ++ replaceL p2 r2 (s.drop p1.length) := by
    conv_lhs => rw [← hdecomp]
    rw [hp1, List.cons_append]
    rw [replaceL_neg (by rw [← List.cons_append, ← hp1, hdecomp]; exact hm2)]
    rw [replaceL_append_skip hskip_t1]
    simp [List.cons_append]
  rw [lhs, rhs, replaceL_pos hp1n (pfx_append_self p1 _), List.drop_left]

/-- Two marker-headed replacement passes with incomparable patterns
commute. -/
theorem replaceL_comm {h0 : Char} {p1 t1 r1 u1 p2 t2 r2 u2 : List Char}
    (hp1 : p1 = h0 :: t1) (ht1 : ∀ c ∈ t1, c ≠ h0)
    (hp2 : p2 = h0 :: t2) (ht2 : ∀ c ∈ t2, c ≠ h0)
    (hr1 : r1 = h0 :: u1) (hu1 : ∀ c ∈ u1, c ≠ h0)
    (hr2 : r2 = h0 :: u2) (hu2 : ∀ c ∈ u2, c ≠ h0)
    (hocc21 : occursB p2 r1 = false) (hlen21 : p2.length ≤ r1.length)
    (hocc12 : occursB p1 r2 = false) (hlen12 : p1.length ≤ r2.length)
    (h12 : pfx p1 p2 = false) (h21 : pfx p2 p1 = false) :
    ∀ s, replaceL p2 r2 (replaceL p1 r1 s) = replaceL p1 r1 (replaceL p2 r2 s) := by
  suffices H : ∀ n s, s.length ≤ n →
      replaceL p2 r2 (replaceL p1 r1 s) = replaceL p1 r1 (replaceL p2 r2 s) by
    intro s; exact H s.length s (le_refl _)
  intro n
  induction n with
  | zero =>
    intro s hs
    have : s = [] := List.length_eq_zero.mp (Nat.le_zero.mp hs)
    subst this; rfl
  | succ n ih =>
    intro s hs
    have ihs : ∀ t : List Char, t.length < s.length →
        replaceL p2 r2 (replaceL p1 r1 t) = replaceL p1 r1 (replaceL p2 r2 t) :=
      fun t ht => ih t (by omega)
    cases hm1 : pfx p1 s with
    | true =>
      have hm2 : pfx p2 s = false := by
        cases hval : pfx p2 s
        · rfl
        · exfalso
          rcases pfx_or hm1 hval with h | h
          · rw [h] at h12; exact Bool.true_eq_false.mp h12
          · rw [h] at h21; exact Bool.true_eq_false.mp h21
      exact replaceL_comm_one hp1 ht1 ⟨t2, hp2⟩ hr1 hu1 hocc21 hlen21 ihs hm1 hm2
    | false =>
      cases hm2 : pfx p2 s with
      | true =>
        exact (replaceL_comm_one hp2 ht2 ⟨t1, hp1⟩ hr2 hu2 hocc12 hlen12
          (fun t ht => (ihs t ht).symm) hm2 hm1).symm
      | false =>
        cases s with
        | nil => rfl
        | cons c rest =>
          have hrlen : rest.length ≤ n := by
            simp only [List.length_cons] at hs; omega
          have hno1 : pfx p1 (c :: replaceL p2 r2 rest) = false := by
            cases hval : pfx p1 (c :: replaceL p2 r2 rest)
            · rfl
            · exfalso
              rw [hp1, pfx_cons_cons, Bool.and_eq_true] at hval
              have hres := pfx_drop_reflect (q := h0 :: t1)
                rfl ht1 hr2 rest 1 (le_refl 1) (by simpa using hval.2)
              simp only [List.drop_succ_cons, List.drop_zero] at hres
              have : pfx p1 (c :: rest) = true := by
                rw [hp1, pfx_cons_cons, hval.1, hres, Bool.true_and]
              rw [this] at hm1
              exact Bool.true_eq_false.mp hm1
          have hno2 : pfx p2 (c :: replaceL p1 r1 rest) = false := by
            cases hval : pfx p2 (c :: replaceL p1 r1 rest)
            · rfl
            · exfalso
              rw [hp2, pfx_cons_cons, Bool.and_eq_true] at hval
              have hres := pfx_drop_reflect (q := h0 :: t2)
                rfl ht2 hr1 rest 1 (le_refl 1) (by simpa using hval.2)
              simp only [List.drop_succ_cons, List.drop_zero] at hres
              have : pfx p2 (c :: rest) = true := by
                rw [hp2, pfx_cons_cons, hval.1, hres, Bool.true_and]
              rw [this] at hm2
              exact Bool.true_eq_false.mp hm2
          rw [replaceL_neg hm1, replaceL_neg hno2, replaceL_neg hm2,
            replaceL_neg hno1, ih rest hrlen]

/-! ### The three concrete substitutions -/

def legDefs : List Char := "#/definitions/".data
def legParams : List Char := "#/parameters/".data
def legResps : List Char := "#/responses/".data
def modDefs : List Char := "#/components/schemas/".data
def modParams : List Char := "#/components/parameters/".data
def modResps : List Char := "#/components/responses/".data

def legDefsT : List Char := "/definitions/".data
def legParamsT : List Char := "/parameters/".data
def legRespsT : List Char := "/responses/".data
def modDefsT : List Char := "/components/schemas/".data
def modParamsT : List Char := "/components/parameters/".data
def modRespsT : List Char := "/components/responses/".data

/-- `s` contains no legacy reference prefix. -/
def noLegacyData (l : List Char) : Bool :=
  !(occursB legDefs l || occursB legParams l || occursB legResps l)

/-- String version of `noLegacyData`. -/
def noLegacyB (s : String) : Bool := noLegacyData s.data

theorem convertRefStr_data (s : String) :
    (convertRefStr s).data =
      replaceL legResps modResps
        (replaceL legParams modParams (replaceL legDefs modDefs s.data)) := rfl

/-- After the three substitutions of `convert_ref`, none of the three
legacy prefixes occurs anywhere in the result. -/
theorem convertRefStr_noLegacy (s : String) : noLegacyB (convertRefStr s) = true := by
  rw [noLegacyB, convertRefStr_data]
  set s1 := replaceL legDefs modDefs s.data with hs1
  set s2 := replaceL legParams modParams s1 with hs2
  have hD : legDefs = '#' :: legDefsT := by decide
  have hDt : ∀ c ∈ legDefsT, c ≠ '#' := by decide
  have hP : legParams = '#' :: legParamsT := by decide
  have hPt : ∀ c ∈ legParamsT, c ≠ '#' := by decide
  have hR : legResps = '#' :: legRespsT := by decide
  have hRt : ∀ c ∈ legRespsT, c ≠ '#' := by decide
  have hMD : modDefs = '#' :: modDefsT := by decide
  have hMDt : ∀ c ∈ modDefsT, c ≠ '#' := by decide
  have hMP : modParams = '#' :: modParamsT := by decide
  have hMPt : ∀ c ∈ modParamsT, c ≠ '#' := by decide
  have hMR : modResps = '#' :: modRespsT := by decide
  have hMRt : ∀ c ∈ modRespsT, c ≠ '#' := by decide
  have hd1 : occursB legDefs s1 = false :=
    occursB_replaceL_self hD hDt hMD hMDt (by decide) (by decide) s.data
  have hd2 : occursB legDefs s2 = false :=
    occursB_replaceL_preserve hD hDt hMP hMPt (by decide) (by decide) s1 hd1
  have hd3 : occursB legDefs (replaceL legResps modResps s2) = false :=
    occursB_replaceL_preserve hD hDt hMR hMRt (by decide) (by decide) s2 hd2
  have hp2 : occursB legParams s2 = false :=
    occursB_replaceL_self hP hPt hMP hMPt (by decide) (by decide) s1
  have hp3 : occursB legParams (replaceL legResps modResps s2) = false :=
    occursB_replaceL_preserve hP hPt hMR hMRt (by decide) (by decide) s2 hp2
  have hr3 : occursB legResps (replaceL legResps modResps s2) = false :=
    occursB_replaceL_self hR hRt hMR hMRt (by decide) (by decide) s2
  rw [noLegacyData, hd3, hp3, hr3]
  rfl

/-- The three individual substitutions, as functions on strings. -/
def replaceDefs (s : String) : String :=
  pyReplace s "#/definitions/" "#/components/schemas/"

def replaceParams (s : String) : String :=
  pyReplace s "#/parameters/" "#/components/parameters/"

def replaceResps (s : String) : String :=
  pyReplace s "#/responses/" "#/components/responses/"

theorem convertRefStr_eq_composition (s : String) :
    convertRefStr s = replaceResps (replaceParams (replaceDefs s)) := rfl

theorem comm_defs_params (s : String) :
    replaceParams (replaceDefs s) = replaceDefs (replaceParams s) := by
  apply congrArg String.mk
  exact @replaceL_comm '#' legDefs legDefsT modDefs modDefsT
    legParams legParamsT modParams modParamsT
    (by decide) (by decide) (by decide) (by decide) (by decide) (by decide)
    (by decide) (by decide) (by decide) (by decide) (by decide) (by decide)
    (by decide) (by decide) s.data

theorem comm_defs_resps (s : String) :
    replaceResps (replaceDefs s) = replaceDefs (replaceResps s) := by
  apply congrArg String.mk
  exact @replaceL_comm '#' legDefs legDefsT modDefs modDefsT
    legResps legRespsT modResps modRespsT
    (by decide) (by decide) (by decide) (by decide) (by decide) (by decide)
    (by decide) (by decide) (by decide) (by decide) (by decide) (by decide)
    (by decide) (by decide) s.data

theorem comm_params_resps (s : String) :
    replaceResps (replaceParams s) = replaceParams (replaceResps s) := by
  apply congrArg String.mk
  exact @replaceL_comm '#' legParams legParamsT modParams modParamsT
    legResps legRespsT modResps modRespsT
    (by decide) (by decide) (by decide) (by decide) (by decide) (by decide)
    (by decide) (by decide) (by decide) (by decide) (by decide) (by decide)
    (by decide) (by decide) s.data

/-- A string without legacy prefixes is left unchanged by
`convert_ref`'s substitutions. -/
theorem convertRefStr_of_noLegacy {s : String} (h : noLegacyB s = true) :
    convertRefStr s = s := by
  rw [noLegacyB, noLegacyData] at h
  simp only [Bool.not_eq_true', Bool.or_eq_false_iff] at h
  obtain ⟨⟨h1, h2⟩, h3⟩ := h
  have hdata : (convertRefStr s).data = s.data := by
    rw [convertRefStr_data, replaceL_of_not_occursB h1,
      replaceL_of_not_occursB h2, replaceL_of_not_occursB h3]
  exact congrArg String.mk hdata

/-! ### Lemmas about the reference traversal -/

theorem lookupKey_none_iff {fs : List (String × Doc)} {key : String} :
    lookupKey fs key = none ↔ ∀ p ∈ fs, p.1 ≠ key := by
  induction fs with
  | nil => simp [lookupKey]
  | cons q rest ih =>
    obtain ⟨k, v⟩ := q
    by_cases hk : k = key
    · subst hk
      simp [lookupKey]
    · simp only [lookupKey, if_neg hk, ih, List.mem_cons]
      constructor
      · rintro h p (rfl | hp)
        · exact hk
        · exact h p hp
      · intro h p hp
        exact h p (Or.inr hp)

/-- The value under a `$ref` key of a clean output: a string free of
legacy prefixes, or any non-string. -/
def cleanRefVal : Doc → Bool
  | .str s => noLegacyB s
  | _ => true

/-! `refsCleanB d` states that every `$ref`-keyed string value anywhere
in `d` is free of the three legacy prefixes. -/

mutual
def refsCleanB : Doc → Bool
  | .obj fields => refsCleanFields fields
  | .arr items => refsCleanList items
  | _ => true
termination_by structural d => d

def refsCleanFields : List (String × Doc) → Bool
  | [] => true
  | (k, v) :: rest =>
    (if k = "$ref" then cleanRefVal v else true) &&
      refsCleanB v && refsCleanFields rest
termination_by structural l => l

def refsCleanList : List Doc → Bool
  | [] => true
  | d :: rest => refsCleanB d && refsCleanList rest
termination_by structural l => l
end

/-- A successful `convert_ref` returns a clean reference value, and
one on which the traversal has nothing left to do. -/
theorem convert_ref_ok_clean {v w : Doc} (h : convert_ref v = .ok w) :
    cleanRefVal w = true ∧ refsCleanB w = true := by
  cases v with
  | str s =>
    simp only [convert_ref] at h
    by_cases ht : pyTruthy (.str s) = false
    · rw [if_pos ht] at h
      cases h
      have hs : s = "" := by
        rw [pyTruthy] at ht
        simpa using ht
      subst hs
      exact ⟨by decide, rfl⟩
    · rw [if_neg ht] at h
      cases h
      exact ⟨convertRefStr_noLegacy s, rfl⟩
  | num n =>
    simp only [convert_ref] at h
    by_cases ht : pyTruthy (.num n) = false
    · rw [if_pos ht] at h; cases h; exact ⟨rfl, rfl⟩
    · rw [if_neg ht] at h; cases h
  | bool b =>
    simp only [convert_ref] at h
    by_cases ht : pyTruthy (.bool b) = false
    · rw [if_pos ht] at h; cases h; exact ⟨rfl, rfl⟩
    · rw [if_neg ht] at h; cases h
  | null =>
    simp only [convert_ref] at h
    rw [if_pos (show pyTruthy Doc.null = false from rfl)] at h
    cases h; exact ⟨rfl, rfl⟩
  | arr items =>
    simp only [convert_ref] at h
    by_cases ht : pyTruthy (.arr items) = false
    · rw [if_pos ht] at h
      cases h
      have hi : items = [] := by
        rw [pyTruthy] at ht
        simpa using ht
      subst hi
      exact ⟨rfl, rfl⟩
    · rw [if_neg ht] at h; cases h
  | obj fields =>
    simp only [convert_ref] at h
    by_cases ht : pyTruthy (.obj fields) = false
    · rw [if_pos ht] at h
      cases h
      have hi : fields = [] := by
        rw [pyTruthy] at ht
        simpa using ht
      subst hi
      exact ⟨rfl, rfl⟩
    · rw [if_neg ht] at h; cases h

/-- The traversal is a no-op on any value returned by a successful
`convert_ref`: the justification for applying the rewritten value
directly in `csrFields` (see the comment on `convert_schema_refs`). -/
theorem convert_schema_refs_fix {v w : Doc} (h : convert_ref v = .ok w) :
    convert_schema_refs w = .ok w := by
  cases v with
  | str s =>
    simp only [convert_ref] at h
    by_cases ht : pyTruthy (.str s) = false
    · rw [if_pos ht] at h; cases h; rfl
    · rw [if_neg ht] at h; cases h; rfl
  | num n =>
    simp only [convert_ref] at h
    by_cases ht : pyTruthy (.num n) = false
    · rw [if_pos ht] at h; cases h; rfl
    · rw [if_neg ht] at h; cases h
  | bool b =>
    simp only [convert_ref] at h
    by_cases ht : pyTruthy (.bool b) = false
    · rw [if_pos ht] at h; cases h; rfl
    · rw [if_neg ht] at h; cases h
  | null =>
    simp only [convert_ref] at h
    rw [if_pos (show pyTruthy Doc.null = false from rfl)] at h
    cases h; rfl
  | arr items =>
    simp only [convert_ref] at h
    by_cases ht : pyTruthy (.arr items) = false
    · rw [if_pos ht] at h
      cases h
      have hi : items = [] := by
        rw [pyTruthy] at ht
        simpa using ht
      subst hi
      rfl
    · rw [if_neg ht] at h; cases h
  | obj fields =>
    simp only [convert_ref] at h
    by_cases ht : pyTruthy (.obj fields) = false
    · rw [if_pos ht] at h
      cases h
      have hi : fields = [] := by
        rw [pyTruthy] at ht
        simpa using ht
      subst hi
      rfl
    · rw [if_neg ht] at h; cases h

/-- Inversion of one successful `csrFields` step. -/
theorem csrFields_ok_cons {rv : Option Doc} {k : String} {v : Doc}
    {rest fs' : List (String × Doc)}
    (h : csrFields rv ((k, v) :: rest) = .ok fs') :
    ∃ v' rest', fs' = (k, v') :: rest' ∧ csrFields rv rest = .ok rest' ∧
      ((rv = none ∨ ¬ k = "$ref") → convert_schema_refs v = .ok v') ∧
      (∀ w, rv = some w → k = "$ref" → v' = w) := by
  cases rv with
  | none =>
    simp only [csrFields] at h
    cases hcr : convert_schema_refs v with
    | error e => rw [hcr] at h; simp at h
    | ok v' =>
      rw [hcr] at h
      cases hcf : csrFields none rest with
      | error e => rw [hcf] at h; simp at h
      | ok rest' =>
        rw [hcf] at h
        simp only [Except.ok.injEq] at h
        exact ⟨v', rest', h.symm, rfl, fun _ => rfl, fun w hw => nomatch hw⟩
  | some w =>
    by_cases hk : k = "$ref"
    · simp only [csrFields, if_pos hk] at h
      cases hcf : csrFields (some w) rest with
      | error e => rw [hcf] at h; simp at h
      | ok rest' =>
        rw [hcf] at h
        simp only [Except.ok.injEq] at h
        refine ⟨w, rest', h.symm, rfl, fun hor => ?_, fun w' hw _ => by cases hw; rfl⟩
        rcases hor with h' | h'
        · cases h'
        · exact absurd hk h'
    · simp only [csrFields, if_neg hk] at h
      cases hcr : convert_schema_refs v with
      | error e => rw [hcr] at h; simp at h
      | ok v' =>
        rw [hcr] at h
        cases hcf : csrFields (some w) rest with
        | error e => rw [hcf] at h; simp at h
        | ok rest' =>
          rw [hcf] at h
          simp only [Except.ok.injEq] at h
          exact ⟨v', rest', h.symm, rfl, fun _ => rfl, fun w' hw hk' => absurd hk' hk⟩

theorem csrFields_ok_nil {rv : Option Doc} {fs' : List (String × Doc)}
    (h : csrFields rv [] = .ok fs') : fs' = [] := by
  simp only [csrFields, Except.ok.injEq] at h
  exact h.symm

theorem csrList_ok_cons {d : Doc} {rest items' : List Doc}
    (h : csrList (d :: rest) = .ok items') :
    ∃ d' rest', items' = d' :: rest' ∧ convert_schema_refs d = .ok d' ∧
      csrList rest = .ok rest' := by
  simp only [csrList] at h
  cases hcr : convert_schema_refs d with
  | error e => rw [hcr] at h; simp at h
  | ok d' =>
    rw [hcr] at h
    cases hcf : csrList rest with
    | error e => rw [hcf] at h; simp at h
    | ok rest' =>
      rw [hcf] at h
      simp only [Except.ok.injEq] at h
      exact ⟨d', rest', h.symm, rfl, rfl⟩

mutual
theorem csr_clean : ∀ (d d' : Doc), convert_schema_refs d = .ok d' → refsCleanB d' = true
  | .str s, d', h => by cases h; rfl
  | .num n, d', h => by cases h; rfl
  | .bool b, d', h => by cases h; rfl
  | .null, d', h => by cases h; rfl
  | .arr items, d', h => by
      simp only [convert_schema_refs] at h
      cases hcl : csrList items with
      | error e => rw [hcl] at h; simp at h
      | ok items' =>
        rw [hcl] at h
        simp only [Except.ok.injEq] at h
        subst h
        exact csrList_clean items items' hcl
  | .obj fs, d', h => by
      cases hlk : lookupKey fs "$ref" with
      | some v =>
        simp only [convert_schema_refs, hlk] at h
        cases hcr : convert_ref v with
        | error e => rw [hcr] at h; simp at h
        | ok v' =>
          rw [hcr] at h
          cases hcf : csrFields (some v') fs with
          | error e => simp [hcf] at h
          | ok fs' =>
            simp only [hcf, Except.ok.injEq] at h
            subst h
            exact csrFields_clean fs (some v') fs'
              (fun w hw => by cases hw; exact convert_ref_ok_clean hcr)
              (fun hn => nomatch hn) hcf
      | none =>
        simp only [convert_schema_refs, hlk] at h
        cases hcf : csrFields none fs with
        | error e => rw [hcf] at h; simp at h
        | ok fs' =>
          rw [hcf] at h
          simp only [Except.ok.injEq] at h
          subst h
          exact csrFields_clean fs none fs' (fun w hw => nomatch hw)
            (fun _ => lookupKey_none_iff.mp hlk) hcf
termination_by structural d => d

theorem csrFields_clean : ∀ (fs : List (String × Doc)) (rv : Option Doc)
    (fs' : List (String × Doc)),
    (∀ w, rv = some w → cleanRefVal w = true ∧ refsCleanB w = true) →
    (rv = none → ∀ p ∈ fs, p.1 ≠ "$ref") →
    csrFields rv fs = .ok fs' → refsCleanFields fs' = true
  | [], rv, fs', _, _, h => by
      rw [csrFields_ok_nil h]
      rfl
  | (k, v) :: rest, rv, fs', hrv, hnr, h => by
      obtain ⟨v', rest', rfl, hrest, hcv, hw⟩ := csrFields_ok_cons h
      have hrest' : refsCleanFields rest' = true :=
        csrFields_clean rest rv rest' hrv
          (fun hn p hp => hnr hn p (List.mem_cons_of_mem _ hp)) hrest
      have hv' : refsCleanB v' = true := by
        cases rv with
        | none => exact csr_clean v v' (hcv (Or.inl rfl))
        | some w =>
          by_cases hk : k = "$ref"
          · rw [hw w rfl hk]; exact (hrv w rfl).2
          · exact csr_clean v v' (hcv (Or.inr hk))
      have hif : (if k = "$ref" then cleanRefVal v' else true) = true := by
        by_cases hk : k = "$ref"
        · rw [if_pos hk]
          cases rv with
          | none => exact absurd hk (hnr rfl (k, v) (List.mem_cons_self _ _))
          | some w => rw [hw w rfl hk]; exact (hrv w rfl).1
        · rw [if_neg hk]
      simp [refsCleanFields, hif, hv', hrest']
termination_by structural fs => fs

theorem csrList_clean : ∀ (items items' : List Doc),
    csrList items = .ok items' → refsCleanList items' = true
  | [], items', h => by
      simp only [csrList, Except.ok.injEq] at h
      subst h
      rfl
  | d :: rest, items', h => by
      obtain ⟨d', rest', rfl, hcr, hcl⟩ := csrList_ok_cons h
      simp [refsCleanList, csr_clean d d' hcr, csrList_clean rest rest' hcl]
termination_by structural items => items
end

/-! ### Structure-preservation lemmas for the traversal -/

theorem csrFields_map_fst {rv : Option Doc} :
    ∀ {fs fs' : List (String × Doc)}, csrFields rv fs = .ok fs' →
      fs'.map Prod.fst = fs.map Prod.fst := by
  intro fs
  induction fs with
  | nil =>
    intro fs' h
    rw [csrFields_ok_nil h]
  | cons p rest ih =>
    intro fs' h
    obtain ⟨k, v⟩ := p
    obtain ⟨v', rest', rfl, hrest, -, -⟩ := csrFields_ok_cons h
    simp [ih hrest]

theorem csrFields_none_lookup_some :
    ∀ {fs fs' : List (String × Doc)} {key : String} {v : Doc},
      csrFields none fs = .ok fs' → lookupKey fs key = some v →
      ∃ v', convert_schema_refs v = .ok v' ∧ lookupKey fs' key = some v' := by
  intro fs
  induction fs with
  | nil =>
    intro fs' key v h hl
    simp [lookupKey] at hl
  | cons p rest ih =>
    intro fs' key v h hl
    obtain ⟨k, w⟩ := p
    obtain ⟨w', rest', rfl, hrest, hcv, -⟩ := csrFields_ok_cons h
    by_cases hk : k = key
    · subst hk
      have hred : lookupKey ((k, w) :: rest) k = some w := by simp [lookupKey]
      rw [hred] at hl
      cases hl
      exact ⟨w', hcv (Or.inl rfl), by simp [lookupKey]⟩
    · simp only [lookupKey, if_neg hk] at hl
      obtain ⟨u', hcsr, hlk⟩ := ih hrest hl
      exact ⟨u', hcsr, by simp only [lookupKey, if_neg hk]; exact hlk⟩

theorem csrFields_none_lookup_none :
    ∀ {fs fs' : List (String × Doc)} {key : String},
      csrFields none fs = .ok fs' → lookupKey fs key = none →
      lookupKey fs' key = none := by
  intro fs
  induction fs with
  | nil =>
    intro fs' key h _
    rw [csrFields_ok_nil h]
    rfl
  | cons p rest ih =>
    intro fs' key h hl
    obtain ⟨k, w⟩ := p
    obtain ⟨w', rest', rfl, hrest, -, -⟩ := csrFields_ok_cons h
    by_cases hk : k = key
    · subst hk
      simp [lookupKey] at hl
    · simp only [lookupKey, if_neg hk] at hl ⊢
      exact ih hrest hl

theorem csrFields_none_mem :
    ∀ {fs fs' : List (String × Doc)} {k : String} {v : Doc},
      csrFields none fs = .ok fs' → (k, v) ∈ fs →
      ∃ v', convert_schema_refs v = .ok v' ∧ (k, v') ∈ fs' := by
  intro fs
  induction fs with
  | nil =>
    intro fs' k v h hm
    cases hm
  | cons p rest ih =>
    intro fs' k v h hm
    obtain ⟨k0, w⟩ := p
    obtain ⟨w', rest', rfl, hrest, hcv, -⟩ := csrFields_ok_cons h
    rcases List.mem_cons.mp hm with heq | hmem
    · cases heq
      exact ⟨w', hcv (Or.inl rfl), List.mem_cons_self _ _⟩
    · obtain ⟨u', hcsr, hmem'⟩ := ih hrest hmem
      exact ⟨u', hcsr, List.mem_cons_of_mem _ hmem'⟩

/-- Unfolding `convert_schema_refs` on a mapping without a top-level
`$ref` key. -/
theorem csr_obj_none_inv {fs : List (String × Doc)} {d' : Doc}
    (hlk : lookupKey fs "$ref" = none)
    (h : convert_schema_refs (.obj fs) = .ok d') :
    ∃ fs', d' = .obj fs' ∧ csrFields none fs = .ok fs' := by
  simp only [convert_schema_refs, hlk] at h
  cases hcf : csrFields none fs with
  | error e => rw [hcf] at h; simp at h
  | ok fs' =>
    rw [hcf] at h
    simp only [Except.ok.injEq] at h
    exact ⟨fs', h.symm, rfl⟩

/-! ### Unfolding lemmas for `convert_spec` -/

theorem convert_spec_obj_openapi {fs : List (String × Doc)}
    (h : hasKey fs "openapi" = true) :
    convert_spec (.obj fs) = .ok (.obj fs) := by
  simp [convert_spec, h]

theorem convert_spec_obj_noswagger {fs : List (String × Doc)}
    (h1 : hasKey fs "openapi" = false) (h2 : hasKey fs "swagger" = false) :
    convert_spec (.obj fs) = .ok (.obj fs) := by
  simp [convert_spec, h1, h2]

theorem convert_spec_legacy {fs : List (String × Doc)}
    (h1 : hasKey fs "openapi" = false) (h2 : hasKey fs "swagger" = true) :
    convert_spec (.obj fs) =
      match serversOf fs with
      | .error e => .error e
      | .ok servers => convert_schema_refs (.obj (preSpec fs servers)) := by
  simp [convert_spec, h1, h2]

theorem copyField_map_fst (fs : List (String × Doc)) (key : String) :
    (copyField fs key).map Prod.fst = if hasKey fs key then [key] else [] := by
  cases hl : lookupKey fs key <;> simp [copyField, hasKey, hl]

theorem copyFieldAs_map_fst (fs : List (String × Doc)) (src dst : String) :
    (copyFieldAs fs src dst).map Prod.fst = if hasKey fs src then [dst] else [] := by
  cases hl : lookupKey fs src <;> simp [copyFieldAs, hasKey, hl]

/-- Keys of the assembled `new_spec`, in insertion order. -/
theorem preSpec_map_fst (fs : List (String × Doc)) (servers : List Doc) :
    (preSpec fs servers).map Prod.fst =
      ["openapi", "info"]
      ++ (if hasKey fs "externalDocs" then ["externalDocs"] else [])
      ++ (if hasKey fs "tags" then ["tags"] else [])
      ++ (if hasKey fs "security" then ["security"] else [])
      ++ (if servers.isEmpty then [] else ["servers"])
      ++ (if (componentsOf fs).isEmpty then [] else ["components"])
      ++ (if hasKey fs "paths" then ["paths"] else [])
      ++ (xFields fs).map Prod.fst := by
  simp only [preSpec, List.map_append, copyField_map_fst]
  by_cases hse : servers.isEmpty <;>
    by_cases hco : (componentsOf fs).isEmpty <;>
      simp [hse, hco]

theorem pyStartsWith_x_ne_ref {s : String} (h : pyStartsWith s "x-" = true) :
    s ≠ "$ref" := by
  intro heq
  subst heq
  exact absurd h (by decide)

theorem mem_if_singleton {key k : String} {c : Prop} [Decidable c]
    (h : key ∈ (if c then [k] else ([] : List String))) : key = k := by
  by_cases hc : c
  · rw [if_pos hc] at h; simpa using h
  · rw [if_neg hc] at h; cases h

theorem mem_if_singleton' {key k : String} {c : Prop} [Decidable c]
    (h : key ∈ (if c then ([] : List String) else [k])) : key = k := by
  by_cases hc : c
  · rw [if_pos hc] at h; cases h
  · rw [if_neg hc] at h; simpa using h

/-- Every key of the assembled `new_spec` is one of the eight fixed
output keys or an `x-` extension key. -/
theorem preSpec_key_cases {fs : List (String × Doc)} {servers : List Doc}
    {key : String} (h : key ∈ (preSpec fs servers).map Prod.fst) :
    key ∈ (["openapi", "info", "externalDocs", "tags", "security", "servers",
      "components", "paths"] : List String) ∨ pyStartsWith key "x-" = true := by
  rw [preSpec_map_fst] at h
  simp only [List.append_assoc, List.mem_append] at h
  rcases h with h | h | h | h | h | h | h | h
  · left
    simp only [List.mem_cons, List.not_mem_nil, or_false] at h
    rcases h with rfl | rfl <;> simp
  · left; rw [mem_if_singleton h]; simp
  · left; rw [mem_if_singleton h]; simp
  · left; rw [mem_if_singleton h]; simp
  · left; rw [mem_if_singleton' h]; simp
  · left; rw [mem_if_singleton' h]; simp
  · left; rw [mem_if_singleton h]; simp
  · right
    simp only [List.mem_map] at h
    obtain ⟨q, hq, rfl⟩ := h
    exact (List.mem_filter.mp hq).2

/-- The assembled `new_spec` never has a top-level `$ref` key. -/
theorem preSpec_no_ref (fs : List (String × Doc)) (servers : List Doc) :
    lookupKey (preSpec fs servers) "$ref" = none := by
  rw [lookupKey_none_iff]
  intro p hp
  have hmem : p.1 ∈ (preSpec fs servers).map Prod.fst :=
    List.mem_map_of_mem Prod.fst hp
  rcases preSpec_key_cases hmem with h | h
  · intro heq
    rw [heq] at h
    simp at h
  · exact pyStartsWith_x_ne_ref h

/-! ### Servers and components helpers -/

theorem serversOf_shape {fs : List (String × Doc)} {servers : List Doc}
    (h : serversOf fs = .ok servers) :
    ∀ d ∈ servers, ∃ u, d = .obj [("url", Doc.str u)] := by
  simp only [serversOf] at h
  split at h
  · cases hit : pyIter ((lookupKey fs "schemes").getD (.arr [.str "http"])) with
    | error e => rw [hit] at h; simp at h
    | ok items =>
      rw [hit] at h
      simp only [Except.ok.injEq] at h
      subst h
      intro d hd
      simp only [List.mem_map] at hd
      obtain ⟨sc, -, rfl⟩ := hd
      exact ⟨_, rfl⟩
  · simp only [Except.ok.injEq] at h
    subst h
    intro d hd
    cases hd

theorem csrList_servers :
    ∀ {servers : List Doc},
      (∀ d ∈ servers, ∃ u, d = .obj [("url", Doc.str u)]) →
      csrList servers = .ok servers := by
  intro servers
  induction servers with
  | nil => intro _; rfl
  | cons d rest ih =>
    intro h
    obtain ⟨u, rfl⟩ := h _ (List.mem_cons_self _ _)
    have hcr : convert_schema_refs (.obj [("url", Doc.str u)]) =
        .ok (.obj [("url", Doc.str u)]) := rfl
    simp only [csrList, hcr, ih (fun d hd => h d (List.mem_cons_of_mem _ hd))]

theorem componentsOf_eq_nil_iff {fs : List (String × Doc)} :
    componentsOf fs = [] ↔
      hasKey fs "definitions" = false ∧ hasKey fs "parameters" = false ∧
      hasKey fs "responses" = false ∧ hasKey fs "securityDefinitions" = false := by
  cases hd : lookupKey fs "definitions" <;>
    cases hp : lookupKey fs "parameters" <;>
      cases hr : lookupKey fs "responses" <;>
        cases hs : lookupKey fs "securityDefinitions" <;>
          simp [componentsOf, copyFieldAs, hasKey, hd, hp, hr, hs]

theorem lookupKey_append {A B : List (String × Doc)} {key : String} :
    lookupKey (A ++ B) key =
      match lookupKey A key with
      | some v => some v
      | none => lookupKey B key := by
  induction A with
  | nil => simp [lookupKey]
  | cons p rest ih =>
    obtain ⟨k, v⟩ := p
    by_cases hk : k = key
    · subst hk
      simp [lookupKey]
    · simp only [List.cons_append, lookupKey, if_neg hk]
      exact ih

theorem lookupKey_copyField_ne {fs : List (String × Doc)} {k key : String}
    (h : ¬ key = k) : lookupKey (copyField fs k) key = none := by
  have h' : ¬ k = key := fun hh => h hh.symm
  cases hl : lookupKey fs k <;>
    simp [copyField, hl, lookupKey, h']

theorem lookupKey_copyField_self {fs : List (String × Doc)} {k : String} :
    lookupKey (copyField fs k) k = lookupKey fs k := by
  cases hl : lookupKey fs k <;> simp [copyField, hl, lookupKey]

theorem lookupKey_copyFieldAs_ne {fs : List (String × Doc)} {src dst key : String}
    (h : ¬ key = dst) : lookupKey (copyFieldAs fs src dst) key = none := by
  have h' : ¬ dst = key := fun hh => h hh.symm
  cases hl : lookupKey fs src <;>
    simp [copyFieldAs, hl, lookupKey, h']

theorem lookupKey_xFields_not_x {fs : List (String × Doc)} {key : String}
    (h : pyStartsWith key "x-" = false) : lookupKey (xFields fs) key = none := by
  rw [lookupKey_none_iff]
  intro p hp
  intro heq
  have := (List.mem_filter.mp hp).2
  rw [heq, h] at this
  exact Bool.false_ne_true this

/-- The `servers` entry of the assembled `new_spec`. -/
theorem preSpec_lookup_servers (fs : List (String × Doc)) (servers : List Doc) :
    lookupKey (preSpec fs servers) "servers" =
      if servers.isEmpty then none else some (.arr servers) := by
  have hx : pyStartsWith "servers" "x-" = false := by decide
  simp only [preSpec, List.append_assoc, lookupKey_append]
  rw [lookupKey_copyField_ne (by decide), lookupKey_copyField_ne (by decide),
    lookupKey_copyField_ne (by decide), lookupKey_copyField_ne (by decide),
    lookupKey_xFields_not_x hx]
  by_cases hse : servers.isEmpty <;>
    by_cases hco : (componentsOf fs).isEmpty <;>
      simp [hse, hco, lookupKey]

/-- The `components` entry of the assembled `new_spec`. -/
theorem preSpec_lookup_components (fs : List (String × Doc)) (servers : List Doc) :
    lookupKey (preSpec fs servers) "components" =
      if (componentsOf fs).isEmpty then none else some (.obj (componentsOf fs)) := by
  have hx : pyStartsWith "components" "x-" = false := by decide
  simp only [preSpec, List.append_assoc, lookupKey_append]
  rw [lookupKey_copyField_ne (by decide), lookupKey_copyField_ne (by decide),
    lookupKey_copyField_ne (by decide), lookupKey_copyField_ne (by decide),
    lookupKey_xFields_not_x hx]
  by_cases hse : servers.isEmpty <;>
    by_cases hco : (componentsOf fs).isEmpty <;>
      simp [hse, hco, lookupKey]

theorem hasKey_iff_mem :
    ∀ {fs : List (String × Doc)} {key : String},
      hasKey fs key = true ↔ key ∈ fs.map Prod.fst := by
  intro fs
  induction fs with
  | nil =>
    intro key
    simp [hasKey, lookupKey]
  | cons p rest ih =>
    intro key
    obtain ⟨k, v⟩ := p
    by_cases hk : k = key
    · subst hk
      simp [hasKey, lookupKey]
    · simp only [hasKey, lookupKey, if_neg hk, List.map_cons, List.mem_cons]
      rw [← @ih key]
      simp only [hasKey]
      constructor
      · intro h; exact Or.inr h
      · rintro (h | h)
        · exact absurd h.symm hk
        · exact h

theorem lookupKey_copyFieldAs_self {fs : List (String × Doc)} {src dst : String} :
    lookupKey (copyFieldAs fs src dst) dst = lookupKey fs src := by
  cases hl : lookupKey fs src <;> simp [copyFieldAs, hl, lookupKey]

theorem componentsOf_map_fst (fs : List (String × Doc)) :
    (componentsOf fs).map Prod.fst =
      (if hasKey fs "definitions" then ["schemas"] else [])
      ++ (if hasKey fs "parameters" then ["parameters"] else [])
      ++ (if hasKey fs "responses" then ["responses"] else [])
      ++ (if hasKey fs "securityDefinitions" then ["securitySchemes"] else []) := by
  simp [componentsOf, List.map_append, copyFieldAs_map_fst]

theorem componentsOf_no_ref (fs : List (String × Doc)) :
    lookupKey (componentsOf fs) "$ref" = none := by
  simp only [componentsOf, List.append_assoc, lookupKey_append]
  rw [lookupKey_copyFieldAs_ne (by decide), lookupKey_copyFieldAs_ne (by decide),
    lookupKey_copyFieldAs_ne (by decide), lookupKey_copyFieldAs_ne (by decide)]

theorem componentsOf_lookup_schemas (fs : List (String × Doc)) :
    lookupKey (componentsOf fs) "schemas" = lookupKey fs "definitions" := by
  simp only [componentsOf, List.append_assoc, lookupKey_append]
  rw [lookupKey_copyFieldAs_self]
  cases hd : lookupKey fs "definitions" with
  | none =>
    rw [lookupKey_copyFieldAs_ne (by decide), lookupKey_copyFieldAs_ne (by decide),
      lookupKey_copyFieldAs_ne (by decide)]
  | some v => rfl

theorem componentsOf_lookup_parameters (fs : List (String × Doc)) :
    lookupKey (componentsOf fs) "parameters" = lookupKey fs "parameters" := by
  simp only [componentsOf, List.append_assoc, lookupKey_append]
  rw [lookupKey_copyFieldAs_ne (by decide), lookupKey_copyFieldAs_self]
  cases hd : lookupKey fs "parameters" with
  | none =>
    rw [lookupKey_copyFieldAs_ne (by decide), lookupKey_copyFieldAs_ne (by decide)]
  | some v => rfl

theorem componentsOf_lookup_responses (fs : List (String × Doc)) :
    lookupKey (componentsOf fs) "responses" = lookupKey fs "responses" := by
  simp only [componentsOf, List.append_assoc, lookupKey_append]
  rw [lookupKey_copyFieldAs_ne (by decide), lookupKey_copyFieldAs_ne (by decide),
    lookupKey_copyFieldAs_self]
  cases hd : lookupKey fs "responses" with
  | none => rw [lookupKey_copyFieldAs_ne (by decide)]
  | some v => rfl

theorem componentsOf_lookup_security (fs : List (String × Doc)) :
    lookupKey (componentsOf fs) "securitySchemes" =
      lookupKey fs "securityDefinitions" := by
  simp only [componentsOf, List.append_assoc, lookupKey_append]
  rw [lookupKey_copyFieldAs_ne (by decide), lookupKey_copyFieldAs_ne (by decide),
    lookupKey_copyFieldAs_ne (by decide), lookupKey_copyFieldAs_self]

/-- Inversion of a successful conversion of a legacy document. -/
theorem convert_spec_legacy_inv {fs : List (String × Doc)} {d' : Doc}
    (hop : hasKey fs "openapi" = false) (hsw : hasKey fs "swagger" = true)
    (h : convert_spec (.obj fs) = .ok d') :
    ∃ servers fs', serversOf fs = .ok servers ∧
      csrFields none (preSpec fs servers) = .ok fs' ∧ d' = .obj fs' := by
  rw [convert_spec_legacy hop hsw] at h
  cases hsv : serversOf fs with
  | error e => rw [hsv] at h; simp at h
  | ok servers =>
    rw [hsv] at h
    obtain ⟨fs', rfl, hcf⟩ := csr_obj_none_inv (preSpec_no_ref fs servers) h
    exact ⟨servers, fs', rfl, hcf, rfl⟩

/-! ### Claim theorems -/

/-- A document the converter passes through untouched: not a mapping,
already modern (`openapi` present), or not legacy (`swagger` absent). -/
def isPassthru : Doc → Prop
  | .obj fs => hasKey fs "openapi" = true ∨ hasKey fs "swagger" = false
  | _ => True

/-- Claim C3: for every document that is not a mapping, or lacks a
top-level `swagger` key, or already contains a top-level `openapi` key,
the Spec Converter returns the input exactly unchanged: `convert_spec`
succeeds with the very same document, so no key is added, removed, or
rewritten and no `$ref` rewriting happens. -/
theorem claim_C3 (d : Doc) (h : isPassthru d) : convert_spec d = .ok d := by
  cases d with
  | obj fs =>
    simp only [isPassthru] at h
    rcases h with h | h
    · exact convert_spec_obj_openapi h
    · by_cases hop : hasKey fs "openapi" = true
      · exact convert_spec_obj_openapi hop
      · exact convert_spec_obj_noswagger (by simpa using hop) h
  | str s => rfl
  | num n => rfl
  | bool b => rfl
  | null => rfl
  | arr items => rfl

theorem claim_C3_witness :
    isPassthru (.obj [("openapi", .str "3.0.0"), ("paths", .obj []),
      ("definitions", .obj [("A", .obj [("$ref", .str "#/definitions/B")])])]) ∧
    convert_spec (.obj [("openapi", .str "3.0.0"), ("paths", .obj []),
      ("definitions", .obj [("A", .obj [("$ref", .str "#/definitions/B")])])]) =
      .ok (.obj [("openapi", .str "3.0.0"), ("paths", .obj []),
        ("definitions", .obj [("A", .obj [("$ref", .str "#/definitions/B")])])]) :=
  ⟨Or.inl (by decide), claim_C3 _ (Or.inl (by decide))⟩

/-- Claim C4: the Spec Converter is idempotent: whenever conversion
succeeds, converting the result returns it unchanged, hence
`convert(convert(D)) = convert(D)`; in particular an
already-converted document (top level contains `openapi`) is returned
structurally equal to the input. -/
theorem claim_C4 (d o : Doc) (h : convert_spec d = .ok o) :
    convert_spec o = .ok o := by
  cases d with
  | obj fs =>
    by_cases hop : hasKey fs "openapi" = true
    · rw [convert_spec_obj_openapi hop] at h
      cases h
      exact convert_spec_obj_openapi hop
    · have hop' : hasKey fs "openapi" = false := by simpa using hop
      by_cases hsw : hasKey fs "swagger" = true
      · obtain ⟨servers, fs', hsv, hcf, rfl⟩ := convert_spec_legacy_inv hop' hsw h
        apply convert_spec_obj_openapi
        rw [hasKey_iff_mem, csrFields_map_fst hcf, preSpec_map_fst]
        simp
      · rw [convert_spec_obj_noswagger hop' (by simpa using hsw)] at h
        cases h
        exact convert_spec_obj_noswagger hop' (by simpa using hsw)
  | str s => cases h; rfl
  | num n => cases h; rfl
  | bool b => cases h; rfl
  | null => cases h; rfl
  | arr items => cases h; rfl

theorem claim_C4_witness :
    convert_spec (.obj [("swagger", .str "2.0"), ("host", .str "h")]) =
      .ok (.obj [("openapi", .str "3.0.0"), ("info", default_info),
        ("servers", .arr [.obj [("url", .str "http://h")]])]) ∧
    convert_spec (.obj [("openapi", .str "3.0.0"), ("info", default_info),
      ("servers", .arr [.obj [("url", .str "http://h")]])]) =
      .ok (.obj [("openapi", .str "3.0.0"), ("info", default_info),
        ("servers", .arr [.obj [("url", .str "http://h")]])]) :=
  ⟨rfl, claim_C4 (.obj [("swagger", .str "2.0"), ("host", .str "h")]) _ rfl⟩

/-- Claim C7: `convert_ref` applies the three legacy-to-modern prefix
substitutions as exact unconditional substring replacements whose
result does not depend on the order of the three passes; a string
containing none of the legacy prefixes is returned unchanged, and an
empty or absent (`None`) input is returned unchanged without error. -/
theorem claim_C7 :
    (∀ s : String,
      convertRefStr s = replaceResps (replaceParams (replaceDefs s)) ∧
      convertRefStr s = replaceParams (replaceResps (replaceDefs s)) ∧
      convertRefStr s = replaceResps (replaceDefs (replaceParams s)) ∧
      convertRefStr s = replaceDefs (replaceResps (replaceParams s)) ∧
      convertRefStr s = replaceParams (replaceDefs (replaceResps s)) ∧
      convertRefStr s = replaceDefs (replaceParams (replaceResps s))) ∧
    (∀ s : String, noLegacyB s = true → convert_ref (.str s) = .ok (.str s)) ∧
    convert_ref (.str "") = .ok (.str "") ∧
    convert_ref .null = .ok .null := by
  refine ⟨fun s => ?_, fun s h => ?_, rfl, rfl⟩
  · have o1 : convertRefStr s = replaceResps (replaceParams (replaceDefs s)) := rfl
    have o2 : convertRefStr s = replaceParams (replaceResps (replaceDefs s)) := by
      rw [o1, comm_params_resps (replaceDefs s)]
    have o3 : convertRefStr s = replaceResps (replaceDefs (replaceParams s)) := by
      rw [o1, comm_defs_params s]
    have o4 : convertRefStr s = replaceDefs (replaceResps (replaceParams s)) := by
      rw [o3, comm_defs_resps (replaceParams s)]
    have o5 : convertRefStr s = replaceParams (replaceDefs (replaceResps s)) := by
      rw [o2, comm_defs_resps s]
    have o6 : convertRefStr s = replaceDefs (replaceParams (replaceResps s)) := by
      rw [o4, comm_params_resps s]
    exact ⟨o1, o2, o3, o4, o5, o6⟩
  · by_cases hs : s = ""
    · subst hs; rfl
    · have ht : ¬ pyTruthy (.str s) = false := by
        simp [pyTruthy, hs]
      simp only [convert_ref, if_neg ht]
      rw [convertRefStr_of_noLegacy h]

theorem claim_C7_witness :
    noLegacyB "#/components/schemas/Pet" = true ∧
    convert_ref (.str "#/components/schemas/Pet") =
      .ok (.str "#/components/schemas/Pet") ∧
    convertRefStr "#/definitions/Pet" =
      replaceDefs (replaceParams (replaceResps "#/definitions/Pet")) :=
  ⟨by decide, claim_C7.2.1 "#/components/schemas/Pet" (by decide),
    (claim_C7.1 "#/definitions/Pet").2.2.2.2.2⟩

/-! Claim C2 material: does any string value (or key) anywhere in a
document still carry one of the three legacy prefixes? -/

mutual
def hasLegacyB : Doc → Bool
  | .str s => !noLegacyB s
  | .arr items => hasLegacyList items
  | .obj fields => hasLegacyFields fields
  | _ => false
termination_by structural d => d

def hasLegacyFields : List (String × Doc) → Bool
  | [] => false
  | (k, v) :: rest => !noLegacyB k || hasLegacyB v || hasLegacyFields rest
termination_by structural l => l

def hasLegacyList : List Doc → Bool
  | [] => false
  | d :: rest => hasLegacyB d || hasLegacyList rest
termination_by structural l => l
end

/-- Claim C2 counterexample: the converter rewrites only values stored
under a `$ref` key, so the legacy prefix `#/definitions/` survives
inside an ordinary string of the converted output, refuting the claim
that no legacy prefix substring remains anywhere in the document. -/
theorem claim_C2_counterexample :
    convert_spec (.obj [("swagger", .str "2.0"),
      ("paths", .obj [("description", .str "#/definitions/X")])]) =
      .ok (.obj [("openapi", .str "3.0.0"), ("info", default_info),
        ("paths", .obj [("description", .str "#/definitions/X")])]) ∧
    hasLegacyB (.obj [("openapi", .str "3.0.0"), ("info", default_info),
      ("paths", .obj [("description", .str "#/definitions/X")])]) = true :=
  ⟨rfl, by decide⟩

/-- Claim C2 (amended): for every legacy document the Spec Converter
actually converts, every `$ref` string value at any nesting depth of
the output (inside sequences, mappings of mappings, etc.) is free of
the three legacy prefixes, each occurrence having been rewritten to the
corresponding `#/components/...` form; legacy prefixes survive only in
strings not stored under a `$ref` key. -/
theorem claim_C2_amended {fs : List (String × Doc)} {d' : Doc}
    (hop : hasKey fs "openapi" = false) (hsw : hasKey fs "swagger" = true)
    (h : convert_spec (.obj fs) = .ok d') : refsCleanB d' = true := by
  rw [convert_spec_legacy hop hsw] at h
  cases hsv : serversOf fs with
  | error e => rw [hsv] at h; simp at h
  | ok servers =>
    rw [hsv] at h
    exact csr_clean _ _ h

def exC2fs : List (String × Doc) :=
  [("swagger", .str "2.0"),
   ("definitions", .obj [("A", .obj [("$ref", .str "#/definitions/B")]),
     ("B", .arr [.obj [("$ref", .str "#/parameters/P")],
       .obj [("inner", .obj [("$ref", .str "#/responses/R")])]])])]

def exC2out : Doc :=
  .obj [("openapi", .str "3.0.0"), ("info", default_info),
    ("components", .obj [("schemas", .obj
      [("A", .obj [("$ref", .str "#/components/schemas/B")]),
       ("B", .arr [.obj [("$ref", .str "#/components/parameters/P")],
         .obj [("inner", .obj [("$ref", .str "#/components/responses/R")])]])])])]

theorem claim_C2_amended_witness :
    hasKey exC2fs "openapi" = false ∧ hasKey exC2fs "swagger" = true ∧
    convert_spec (.obj exC2fs) = .ok exC2out ∧ refsCleanB exC2out = true :=
  ⟨by decide, by decide, rfl,
    @claim_C2_amended exC2fs exC2out (by decide) (by decide) (by rfl)⟩

/-- Evaluation of `serversOf` when the effective `schemes` value is a
sequence. -/
theorem serversOf_eval {fs : List (String × Doc)} {sl : List Doc}
    (hsch : (lookupKey fs "schemes").getD (.arr [.str "http"]) = .arr sl) :
    serversOf fs =
      .ok (if hasKey fs "host" || hasKey fs "basePath" || hasKey fs "schemes"
        then sl.map (fun sc => .obj [("url", .str (serverUrl sc
          ((lookupKey fs "host").getD (.str "localhost"))
          ((lookupKey fs "basePath").getD (.str ""))))])
        else []) := by
  by_cases ht : (hasKey fs "host" || hasKey fs "basePath" || hasKey fs "schemes") = true
  · simp only [serversOf, ht, if_true, hsch, pyIter]
  · have ht' : (hasKey fs "host" || hasKey fs "basePath" || hasKey fs "schemes") = false :=
      by simpa using ht
    simp only [serversOf, ht', Bool.false_eq_true, if_false]

/-- Claim C1 counterexample: `host` is a trigger field and is present,
so the claim requires a synthesized `servers` key; but with `schemes`
present and equal to the empty sequence the loop of lines 74-75
produces no entries and the truthiness test on line 77 omits the key
entirely. -/
theorem claim_C1_counterexample :
    hasKey [("swagger", Doc.str "2.0"), ("host", Doc.str "api.example.com"),
      ("schemes", Doc.arr [])] "host" = true ∧
    convert_spec (.obj [("swagger", .str "2.0"), ("host", .str "api.example.com"),
      ("schemes", .arr [])]) =
      .ok (.obj [("openapi", .str "3.0.0"), ("info", default_info)]) ∧
    lookupKey [("openapi", Doc.str "3.0.0"), ("info", default_info)] "servers" =
      none :=
  ⟨by decide, rfl, by decide⟩

/-- Claim C1 (amended): for a legacy document whose effective `schemes`
value is a sequence `sl` (the input value when present, else the
default `["http"]`), the output carries a `servers` key if and only if
at least one of `host`, `basePath`, `schemes` is present in the input
AND `sl` is non-empty; when present its value is one entry
`{url: "<scheme>://<host><basePath>"}` per element of `sl`, in order,
with `host` defaulting to `"localhost"` and `basePath` to `""`.  (The
original claim fails when `schemes` is present but empty: the key is
then omitted even though a trigger field is present.)  The second
conjunct checks the specific example from the specification. -/
theorem claim_C1_amended :
    (∀ (fs : List (String × Doc)) (d' : Doc) (sl : List Doc),
      hasKey fs "openapi" = false → hasKey fs "swagger" = true →
      (lookupKey fs "schemes").getD (.arr [.str "http"]) = .arr sl →
      convert_spec (.obj fs) = .ok d' →
      ∃ fs', d' = .obj fs' ∧
        lookupKey fs' "servers" =
          (if (hasKey fs "host" || hasKey fs "basePath" || hasKey fs "schemes")
              && !sl.isEmpty then
            some (.arr (sl.map (fun sc => .obj [("url", .str
              (pyStr sc ++ "://"
                ++ pyStr ((lookupKey fs "host").getD (.str "localhost"))
                ++ pyStr ((lookupKey fs "basePath").getD (.str ""))))])))
          else none)) ∧
    convert_spec (.obj [("swagger", .str "2.0"), ("host", .str "api.example.com"),
      ("basePath", .str "/v1"), ("schemes", .arr [.str "https", .str "http"])]) =
      .ok (.obj [("openapi", .str "3.0.0"), ("info", default_info),
        ("servers", .arr [.obj [("url", .str "https://api.example.com/v1")],
          .obj [("url", .str "http://api.example.com/v1")]])]) := by
  constructor
  · intro fs d' sl hop hsw hsch h
    obtain ⟨servers, fs', hsv, hcf, rfl⟩ := convert_spec_legacy_inv hop hsw h
    refine ⟨fs', rfl, ?_⟩
    have hse := serversOf_eval hsch
    rw [hsv] at hse
    have hservers : servers =
        (if hasKey fs "host" || hasKey fs "basePath" || hasKey fs "schemes"
          then sl.map (fun sc => .obj [("url", .str (serverUrl sc
            ((lookupKey fs "host").getD (.str "localhost"))
            ((lookupKey fs "basePath").getD (.str ""))))])
          else []) := by
      simpa using hse
    by_cases ht : (hasKey fs "host" || hasKey fs "basePath" || hasKey fs "schemes") = true
    · rw [ht, if_pos rfl] at hservers
      by_cases hnil : sl.isEmpty = true
      · have hsl : sl = [] := by simpa using hnil
        subst hsl
        simp only [List.map_nil] at hservers
        subst hservers
        have hpre : lookupKey (preSpec fs []) "servers" = none := by
          rw [preSpec_lookup_servers]
          simp
        rw [csrFields_none_lookup_none hcf hpre]
        simp [ht, hnil]
      · have hne : servers.isEmpty = false := by
          rw [hservers]
          cases sl with
          | nil => exact absurd rfl hnil
          | cons a rest => rfl
        have hpre : lookupKey (preSpec fs servers) "servers" =
            some (.arr servers) := by
          rw [preSpec_lookup_servers, hne]
          simp
        obtain ⟨v', hcsr, hlk⟩ := csrFields_none_lookup_some hcf hpre
        have hshape : ∀ d ∈ servers, ∃ u, d = .obj [("url", Doc.str u)] :=
          serversOf_shape hsv
        have hfix : convert_schema_refs (.arr servers) = .ok (.arr servers) := by
          simp only [convert_schema_refs, csrList_servers hshape]
        rw [hfix] at hcsr
        cases hcsr
        rw [hlk, hservers]
        simp [ht, hnil, serverUrl]
    · have ht' : (hasKey fs "host" || hasKey fs "basePath" || hasKey fs "schemes") = false :=
        by simpa using ht
      rw [ht', if_neg (by simp)] at hservers
      subst hservers
      have hpre : lookupKey (preSpec fs []) "servers" = none := by
        rw [preSpec_lookup_servers]
        simp
      rw [csrFields_none_lookup_none hcf hpre]
      simp [ht']
  · rfl

theorem claim_C1_amended_witness :
    lookupKey [("openapi", Doc.str "3.0.0"), ("info", default_info),
      ("servers", Doc.arr [.obj [("url", Doc.str "http://h")]])] "servers" =
      some (.arr [.obj [("url", .str "http://h")]]) := by
  have h := claim_C1_amended.1 [("swagger", .str "2.0"), ("host", .str "h")]
    (.obj [("openapi", .str "3.0.0"), ("info", default_info),
      ("servers", .arr [.obj [("url", .str "http://h")]])])
    [.str "http"] (by decide) (by decide) (by decide) (by rfl)
  obtain ⟨fs', heq, hlk⟩ := h
  cases heq
  simpa using hlk

/-- Claim C5 counterexample: the `components` sub-values are not copied
verbatim: the reference rewrite of line 112 also runs inside the copied
`definitions`, so the output `components.schemas` differs from the
input `definitions` whenever it contains a legacy `$ref`. -/
theorem claim_C5_counterexample :
    convert_spec (.obj [("swagger", .str "2.0"),
      ("definitions", .obj [("A", .obj [("$ref", .str "#/definitions/B")])])]) =
      .ok (.obj [("openapi", .str "3.0.0"), ("info", default_info),
        ("components", .obj [("schemas",
          .obj [("A", .obj [("$ref", .str "#/components/schemas/B")])])])]) ∧
    (Doc.obj [("A", .obj [("$ref", .str "#/components/schemas/B")])] ≠
      Doc.obj [("A", .obj [("$ref", .str "#/definitions/B")])]) :=
  ⟨rfl, by decide⟩

/-- Claim C5 (amended): for every converted legacy document, the
output has a `components` key exactly when at least one of the four
source keys (`definitions`, `parameters`, `responses`,
`securityDefinitions`) is present; its sub-keys are, in the order
schemas, parameters, responses, securitySchemes, exactly those whose
source key exists, and each value is the input value transformed by the
reference rewriter (hence verbatim only when it contains no legacy
`$ref`); when none of the four source keys exists, the output has no
`components` key at all. -/
theorem claim_C5_amended (fs : List (String × Doc)) (d' : Doc)
    (hop : hasKey fs "openapi" = false) (hsw : hasKey fs "swagger" = true)
    (h : convert_spec (.obj fs) = .ok d') :
    ∃ fs', d' = .obj fs' ∧
      (if hasKey fs "definitions" || hasKey fs "parameters"
          || hasKey fs "responses" || hasKey fs "securityDefinitions" then
        ∃ comps', lookupKey fs' "components" = some (.obj comps') ∧
          comps'.map Prod.fst =
            (if hasKey fs "definitions" then ["schemas"] else [])
            ++ (if hasKey fs "parameters" then ["parameters"] else [])
            ++ (if hasKey fs "responses" then ["responses"] else [])
            ++ (if hasKey fs "securityDefinitions" then ["securitySchemes"] else []) ∧
          (∀ v, lookupKey fs "definitions" = some v →
            ∃ v', convert_schema_refs v = .ok v' ∧
              lookupKey comps' "schemas" = some v') ∧
          (∀ v, lookupKey fs "parameters" = some v →
            ∃ v', convert_schema_refs v = .ok v' ∧
              lookupKey comps' "parameters" = some v') ∧
          (∀ v, lookupKey fs "responses" = some v →
            ∃ v', convert_schema_refs v = .ok v' ∧
              lookupKey comps' "responses" = some v') ∧
          (∀ v, lookupKey fs "securityDefinitions" = some v →
            ∃ v', convert_schema_refs v = .ok v' ∧
              lookupKey comps' "securitySchemes" = some v')
      else lookupKey fs' "components" = none) := by
  obtain ⟨servers, fs', hsv, hcf, rfl⟩ := convert_spec_legacy_inv hop hsw h
  refine ⟨fs', rfl, ?_⟩
  by_cases hany : (hasKey fs "definitions" || hasKey fs "parameters"
      || hasKey fs "responses" || hasKey fs "securityDefinitions") = true
  · rw [hany, if_pos rfl]
    have hcompne : (componentsOf fs).isEmpty = false := by
      cases hc : (componentsOf fs).isEmpty
      · rfl
      · exfalso
        obtain ⟨h1, h2, h3, h4⟩ :=
          componentsOf_eq_nil_iff.mp (List.isEmpty_iff.mp hc)
        rw [h1, h2, h3, h4] at hany
        simp at hany
    have hpre : lookupKey (preSpec fs servers) "components" =
        some (.obj (componentsOf fs)) := by
      rw [preSpec_lookup_components, hcompne]
      simp
    obtain ⟨v', hcsr, hlk⟩ := csrFields_none_lookup_some hcf hpre
    obtain ⟨comps', hv', hcfc⟩ := csr_obj_none_inv (componentsOf_no_ref fs) hcsr
    subst hv'
    refine ⟨comps', hlk, ?_, ?_, ?_, ?_, ?_⟩
    · rw [csrFields_map_fst hcfc, componentsOf_map_fst]
    · intro v hv
      exact csrFields_none_lookup_some hcfc
        (by rw [componentsOf_lookup_schemas]; exact hv)
    · intro v hv
      exact csrFields_none_lookup_some hcfc
        (by rw [componentsOf_lookup_parameters]; exact hv)
    · intro v hv
      exact csrFields_none_lookup_some hcfc
        (by rw [componentsOf_lookup_responses]; exact hv)
    · intro v hv
      exact csrFields_none_lookup_some hcfc
        (by rw [componentsOf_lookup_security]; exact hv)
  · have hany' : (hasKey fs "definitions" || hasKey fs "parameters"
        || hasKey fs "responses" || hasKey fs "securityDefinitions") = false := by
      simpa using hany
    rw [hany']
    simp only [Bool.false_eq_true, if_false]
    simp only [Bool.or_eq_false_iff] at hany'
    have hnil : componentsOf fs = [] :=
      componentsOf_eq_nil_iff.mpr
        ⟨hany'.1.1.1, hany'.1.1.2, hany'.1.2, hany'.2⟩
    have hpre : lookupKey (preSpec fs servers) "components" = none := by
      rw [preSpec_lookup_components, hnil]
      simp
    exact csrFields_none_lookup_none hcf hpre

def exC5fs : List (String × Doc) :=
  [("swagger", .str "2.0"),
   ("definitions", .obj [("A", .obj [("$ref", .str "#/definitions/B")])]),
   ("responses", .obj [])]

def exC5outFs : List (String × Doc) :=
  [("openapi", .str "3.0.0"), ("info", default_info),
   ("components", .obj
     [("schemas", .obj [("A", .obj [("$ref", .str "#/components/schemas/B")])]),
      ("responses", .obj [])])]

theorem claim_C5_amended_witness :
    hasKey exC5fs "openapi" = false ∧ hasKey exC5fs "swagger" = true ∧
    convert_spec (.obj exC5fs) = .ok (.obj exC5outFs) ∧
    lookupKey exC5outFs "components" = some (.obj
      [("schemas", .obj [("A", .obj [("$ref", .str "#/components/schemas/B")])]),
       ("responses", .obj [])]) := by
  refine ⟨by decide, by decide, by rfl, ?_⟩
  obtain ⟨fs', heq, hcomp⟩ :=
    claim_C5_amended exC5fs (.obj exC5outFs) (by decide) (by decide) (by rfl)
  cases heq
  rw [show (hasKey exC5fs "definitions" || hasKey exC5fs "parameters"
      || hasKey exC5fs "responses" || hasKey exC5fs "securityDefinitions") = true
    from by decide] at hcomp
  rw [if_pos rfl] at hcomp
  obtain ⟨comps', hlk, -⟩ := hcomp
  have hval : (some (Doc.obj
      [("schemas", .obj [("A", .obj [("$ref", .str "#/components/schemas/B")])]),
       ("responses", .obj [])]) : Option Doc) = some (.obj comps') := by
    rw [← hlk]
    rfl
  cases hval
  exact hlk

/-- Claim C6 counterexample: `x-` extension values are not copied
verbatim into the output: the reference rewrite of line 112 also runs
inside them, so an `x-` subtree containing a legacy `$ref` differs from
the input. -/
theorem claim_C6_counterexample :
    convert_spec (.obj [("swagger", .str "2.0"),
      ("x-a", .obj [("$ref", .str "#/definitions/X")])]) =
      .ok (.obj [("openapi", .str "3.0.0"), ("info", default_info),
        ("x-a", .obj [("$ref", .str "#/components/schemas/X")])]) ∧
    (Doc.obj [("$ref", .str "#/components/schemas/X")] ≠
      Doc.obj [("$ref", .str "#/definitions/X")]) :=
  ⟨rfl, by decide⟩

/-- Claim C6 (amended): for every converted legacy document, the
output keys are exactly `openapi`, `info`, then the optional copied
keys (`externalDocs`, `tags`, `security`), the optional synthesized
`servers` and `components`, the optional `paths`, followed by every
`x-` input key in input iteration order (after all other assignments);
each `x-` key is copied under the same key with its value transformed
by the reference rewriter (verbatim only when it contains no legacy
`$ref`); and every input key that is neither `x-`-prefixed nor one of
the eight output names above is absent from the output, including the
consumed legacy keys `swagger`, `host`, `basePath`, `schemes`,
`definitions`, `parameters`, `responses`, `securityDefinitions`. -/
theorem claim_C6_amended (fs : List (String × Doc)) (d' : Doc)
    (hop : hasKey fs "openapi" = false) (hsw : hasKey fs "swagger" = true)
    (h : convert_spec (.obj fs) = .ok d') :
    ∃ servers fs', serversOf fs = .ok servers ∧ d' = .obj fs' ∧
      fs'.map Prod.fst =
        ["openapi", "info"]
        ++ (if hasKey fs "externalDocs" then ["externalDocs"] else [])
        ++ (if hasKey fs "tags" then ["tags"] else [])
        ++ (if hasKey fs "security" then ["security"] else [])
        ++ (if servers.isEmpty then [] else ["servers"])
        ++ (if (componentsOf fs).isEmpty then [] else ["components"])
        ++ (if hasKey fs "paths" then ["paths"] else [])
        ++ (fs.filter (fun p => pyStartsWith p.1 "x-")).map Prod.fst ∧
      (∀ k v, pyStartsWith k "x-" = true → (k, v) ∈ fs →
        ∃ v', convert_schema_refs v = .ok v' ∧ (k, v') ∈ fs') ∧
      (∀ key, pyStartsWith key "x-" = false →
        ¬ key ∈ (["openapi", "info", "externalDocs", "tags", "security",
          "servers", "components", "paths"] : List String) →
        ¬ key ∈ fs'.map Prod.fst) := by
  obtain ⟨servers, fs', hsv, hcf, rfl⟩ := convert_spec_legacy_inv hop hsw h
  refine ⟨servers, fs', hsv, rfl, ?_, ?_, ?_⟩
  · rw [csrFields_map_fst hcf, preSpec_map_fst]
    rfl
  · intro k v hx hmem
    have hpre : (k, v) ∈ preSpec fs servers :=
      List.mem_append.mpr (Or.inr (List.mem_filter.mpr ⟨hmem, hx⟩))
    exact csrFields_none_mem hcf hpre
  · intro key hx hnotin hkmem
    rw [csrFields_map_fst hcf] at hkmem
    rcases preSpec_key_cases hkmem with h8 | hxk
    · exact hnotin h8
    · rw [hx] at hxk
      exact Bool.false_ne_true hxk

def exC6fs : List (String × Doc) :=
  [("swagger", .str "2.0"), ("foo", .num 1), ("x-b", .str "v")]

def exC6outFs : List (String × Doc) :=
  [("openapi", .str "3.0.0"), ("info", default_info), ("x-b", .str "v")]

theorem claim_C6_amended_witness :
    convert_spec (.obj exC6fs) = .ok (.obj exC6outFs) ∧
    ("x-b", Doc.str "v") ∈ exC6outFs ∧
    ¬ "foo" ∈ exC6outFs.map Prod.fst := by
  obtain ⟨servers, fs', hsv, heq, hkeys, hx, habs⟩ :=
    claim_C6_amended exC6fs (.obj exC6outFs) (by decide) (by decide) (by rfl)
  cases heq
  refine ⟨by rfl, ?_, ?_⟩
  · obtain ⟨v', hcsr, hmem⟩ := hx "x-b" (.str "v") (by decide) (by decide)
    cases hcsr
    exact hmem
  · exact habs "foo" (by decide) (by decide)

/-! ### File processing model (`convert_file` and `main`, lines 117-175)

The file layer reads a file, parses JSON/YAML with a library function,
converts, compares, and writes back.  We abstract the I/O surface of
one file into a `FileEntry`: `parse` is the outcome of
opening-and-parsing the file (a raised exception, modelled as an error
message, or the parsed document) and `writeOk` records whether writing
back would succeed.  Everything inside the `try` block of lines
119-145 that can raise is reflected by those two fields plus errors
from `convert_spec` itself. -/

instance : DecidableEq (Except String Doc) := fun a b =>
  match a, b with
  | .error x, .error y =>
    if h : x = y then .isTrue (by rw [h])
    else .isFalse (by intro hh; cases hh; exact h rfl)
  | .ok x, .ok y =>
    if h : x = y then .isTrue (by rw [h])
    else .isFalse (by intro hh; cases hh; exact h rfl)
  | .error _, .ok _ => .isFalse (by intro hh; cases hh)
  | .ok _, .error _ => .isFalse (by intro hh; cases hh)

structure FileEntry where
  path : String
  parse : Except String Doc
  writeOk : Bool
deriving DecidableEq

/-- `convert_file` (lines 117-149): whether the file was converted,
together with the error-stream lines printed.  The comparison on line
134 is Python `==` on the two documents, here structural equality.
(In the script the parsed input has already been mutated in place by
the reference rewrite when the comparison runs; that cannot change its
outcome: a converted output always has an `openapi` key while the
legacy input keeps its `swagger` key, so the two sides differ at top
level either way, and on the passthrough branches the two sides are
the identical object.  See the heap model below for the mutation
itself.) -/
def convert_file (f : FileEntry) : Bool × List String :=
  match f.parse with
  | .error e => (false, ["Error converting " ++ f.path ++ ": " ++ e])
  | .ok data =>
    if pyTruthy data = false then (false, [])
    else
      match convert_spec data with
      | .error e => (false, ["Error converting " ++ f.path ++ ": " ++ e])
      | .ok converted =>
        if converted = data then (false, [])
        else if f.writeOk then (true, [])
        else (false, ["Error converting " ++ f.path ++ ": write failure"])

/-- Processing loop of `main` (lines 168-172): converted count and
concatenated error-stream output. -/
def runBatch : List FileEntry → Nat × List String
  | [] => (0, [])
  | f :: rest =>
    let r := convert_file f
    let rr := runBatch rest
    ((if r.1 then 1 else 0) + rr.1, r.2 ++ rr.2)

/-- Lexicographic comparison of strings by code point: the order
Python uses to sort path strings. -/
def charListLe : List Char → List Char → Bool
  | [], _ => true
  | _ :: _, [] => false
  | a :: as, b :: bs =>
    if a.toNat < b.toNat then true
    else if b.toNat < a.toNat then false
    else charListLe as bs

def strLe (a b : String) : Bool := charListLe a.data b.data

/-- Insertion sort by path: `sorted(files)` on line 169. -/
def insertSorted (f : FileEntry) : List FileEntry → List FileEntry
  | [] => [f]
  | g :: rest =>
    if strLe f.path g.path then f :: g :: rest else g :: insertSorted f rest

def sortFiles : List FileEntry → List FileEntry
  | [] => []
  | f :: rest => insertSorted f (sortFiles rest)

/-- `main` (lines 152-175): exit status, converted count, error-stream
lines.  The fixtures directory is `none` when it does not exist (lines
156-158, exit status 1); otherwise the files are processed in sorted
path order and the run exits with status 0 whatever the individual
outcomes. -/
def main (fixtures : Option (List FileEntry)) : Nat × Nat × List String :=
  match fixtures with
  | none => (1, 0, ["Fixtures directory not found"])
  | some files =>
    let r := runBatch (sortFiles files)
    (0, r.1, r.2)

theorem runBatch_count (files : List FileEntry) :
    (runBatch files).1 = files.countP (fun f => (convert_file f).1) := by
  induction files with
  | nil => rfl
  | cons f rest ih =>
    simp only [runBatch, ih, List.countP_cons]
    cases hc : (convert_file f).1 <;> simp [hc, Nat.add_comm]

theorem insertSorted_perm (f : FileEntry) (l : List FileEntry) :
    (insertSorted f l).Perm (f :: l) := by
  induction l with
  | nil => exact List.Perm.refl _
  | cons g rest ih =>
    simp only [insertSorted]
    by_cases hle : strLe f.path g.path = true
    · rw [if_pos hle]
    · rw [if_neg hle]
      exact (ih.cons g).trans (List.Perm.swap f g rest)

theorem sortFiles_perm (files : List FileEntry) :
    (sortFiles files).Perm files := by
  induction files with
  | nil => exact List.Perm.refl _
  | cons f rest ih =>
    exact (insertSorted_perm f (sortFiles rest)).trans (ih.cons f)

theorem runBatch_errors_mem {files : List FileEntry} {f : FileEntry}
    (hf : f ∈ files) {e : String} (he : e ∈ (convert_file f).2) :
    e ∈ (runBatch files).2 := by
  induction files with
  | nil => cases hf
  | cons g rest ih =>
    simp only [runBatch, List.mem_append]
    rcases List.mem_cons.mp hf with rfl | hmem
    · exact Or.inl he
    · exact Or.inr (ih hmem)

/-- Claim C8: a per-file failure (parse error or write error) is caught
inside the per-file conversion, logged to the error stream with the
file path, counted as not-converted, and does not abort the remaining
files: the converted count is the pointwise count over all files
whatever the other files do; the run exits with failure status only
when the fixtures directory does not exist and with success status
otherwise, regardless of individual failures. -/
theorem claim_C8 :
    main none = (1, 0, ["Fixtures directory not found"]) ∧
    (∀ files, (main (some files)).1 = 0) ∧
    (∀ files, (main (some files)).2.1 =
      files.countP (fun f => (convert_file f).1)) ∧
    (∀ (path e : String) (w : Bool),
      convert_file ⟨path, .error e, w⟩ =
        (false, ["Error converting " ++ path ++ ": " ++ e])) ∧
    (∀ files f, f ∈ files → ∀ e, e ∈ (convert_file f).2 →
      e ∈ (main (some files)).2.2) := by
  refine ⟨rfl, fun files => rfl, fun files => ?_, fun path e w => rfl,
    fun files f hf e he => ?_⟩
  · show (runBatch (sortFiles files)).1 = _
    rw [runBatch_count]
    exact (sortFiles_perm files).countP_eq _
  · show e ∈ (runBatch (sortFiles files)).2
    exact runBatch_errors_mem (((sortFiles_perm files).mem_iff).mpr hf) he

def exBad : FileEntry := ⟨"fixtures/bad.json", .error "Expecting value", true⟩

def exGood : FileEntry :=
  ⟨"fixtures/good.yaml", .ok (.obj [("swagger", .str "2.0")]), true⟩

theorem claim_C8_witness :
    main (some [exBad, exGood]) =
      (0, 1, ["Error converting fixtures/bad.json: Expecting value"]) ∧
    (main (some [exBad, exGood])).2.1 =
      List.countP (fun f => (convert_file f).1) [exBad, exGood] ∧
    "Error converting fixtures/bad.json: Expecting value" ∈
      (main (some [exBad, exGood])).2.2 :=
  ⟨rfl, claim_C8.2.2.1 [exBad, exGood],
    claim_C8.2.2.2.2 [exBad, exGood] exBad (by decide) _ (by decide)⟩

/-- Claim C10: a truthy non-string value under a `$ref` key makes
`convert_ref` raise (attribute error on `.replace`), so the rewriting
traversal is not total; the exception propagates out of `convert_spec`
and is caught only by the per-file handler, which counts that file as
not converted. -/
theorem claim_C10 :
    (∀ v : Doc, pyTruthy v = true → (∀ s, v ≠ .str s) →
      convert_ref v = .error "AttributeError") ∧
    convert_spec (.obj [("swagger", .str "2.0"),
      ("paths", .obj [("$ref", .num 5)])]) = .error "AttributeError" ∧
    convert_file ⟨"fixtures/bad-ref.json",
      .ok (.obj [("swagger", .str "2.0"), ("paths", .obj [("$ref", .num 5)])]),
      true⟩ =
      (false, ["Error converting fixtures/bad-ref.json: AttributeError"]) := by
  refine ⟨?_, rfl, rfl⟩
  intro v ht hns
  cases v with
  | str s => exact absurd rfl (hns s)
  | num n => simp [convert_ref, ht]
  | bool b => simp [convert_ref, ht]
  | null => simp [convert_ref, ht]
  | arr items => simp [convert_ref, ht]
  | obj fields => simp [convert_ref, ht]

theorem claim_C10_witness :
    pyTruthy (.num 5) = true ∧
    convert_ref (.num 5) = .error "AttributeError" :=
  ⟨by decide, claim_C10.1 (.num 5) (by decide) (fun s h => nomatch h)⟩

/-! ### Heap model of object identity and in-place mutation (claim C9)

`convert_spec` builds `new_spec` out of the very objects of its input
(`new_spec['info'] = spec['info']`, `components['schemas'] =
spec['definitions']`, the `x-` copies, and so on share references) and
`convert_schema_refs` mutates dicts in place, so converting also
mutates the original parsed document.  The pure model above cannot
express that; this section makes object identity explicit: a heap is a
list of nodes addressed by position, dict fields and sequence items
hold addresses, and the functions below mirror the same source lines
while threading the heap.  Fuel bounds the recursion; every theorem
instantiates it concretely or universally quantifies it. -/

inductive HVal where
  | hstr (s : String)
  | hnum (n : Int)
  | hbool (b : Bool)
  | hnull
  | harr (items : List Nat)
  | hobj (fields : List (String × Nat))
deriving Repr, DecidableEq

abbrev Heap := List HVal

/-- Allocation: append a node, return its address. -/
def halloc (h : Heap) (v : HVal) : Heap × Nat := (h ++ [v], h.length)

def lookupKeyN : List (String × Nat) → String → Option Nat
  | [], _ => none
  | (k, a) :: rest, key => if k = key then some a else lookupKeyN rest key

def hasKeyN (fs : List (String × Nat)) (key : String) : Bool :=
  (lookupKeyN fs key).isSome

/-- Replace the address stored under `key` (dict item assignment for an
existing key keeps its position). -/
def setKeyN : List (String × Nat) → String → Nat → List (String × Nat)
  | [], _, _ => []
  | (k, a) :: rest, key, newA =>
    if k = key then (k, newA) :: rest else (k, a) :: setKeyN rest key newA

/-- Python truthiness of a heap node. -/
def hTruthy : HVal → Bool
  | .hstr s => s != ""
  | .hnum n => n != 0
  | .hbool b => b
  | .hnull => false
  | .harr items => !items.isEmpty
  | .hobj fields => !fields.isEmpty

/-- Read back the value tree rooted at an address. -/
def decodeD : Nat → Heap → Nat → Option Doc
  | 0, _, _ => none
  | fuel + 1, h, a =>
    match h[a]? with
    | none => none
    | some (.hstr s) => some (.str s)
    | some (.hnum n) => some (.num n)
    | some (.hbool b) => some (.bool b)
    | some .hnull => some Doc.null
    | some (.harr items) => (items.mapM (decodeD fuel h)).map Doc.arr
    | some (.hobj fields) =>
      (fields.mapM (fun p => (decodeD fuel h p.2).map (fun d => (p.1, d)))).map
        Doc.obj

/-- `convert_schema_refs` on the heap (lines 27-36): reassigning
`obj["$ref"]` redirects that entry of the dict node to a freshly
allocated string when the value is a truthy string, leaves the entry
alone when the value is falsy, and raises otherwise; then the traversal
recurses into every value of the updated dict, and into every element
of a sequence.  All mutation is in place: node addresses never move. -/
def csrH : Nat → Heap → Nat → Except String Heap
  | 0, _, _ => .error "fuel"
  | fuel + 1, h, a =>
    match h[a]? with
    | none => .error "bad address"
    | some (.hobj fs) =>
      (match lookupKeyN fs "$ref" with
      | some rA =>
        match h[rA]? with
        | none => .error "bad address"
        | some rv =>
          if hTruthy rv = false then
            fs.foldlM (fun hh p => csrH fuel hh p.2) h
          else
            match rv with
            | .hstr s =>
              let h1 := h ++ [HVal.hstr (convertRefStr s)]
              let fs1 := setKeyN fs "$ref" h.length
              let h2 := h1.set a (.hobj fs1)
              fs1.foldlM (fun hh p => csrH fuel hh p.2) h2
            | _ => .error "AttributeError"
      | none => fs.foldlM (fun hh p => csrH fuel hh p.2) h)
    | some (.harr items) => items.foldlM (fun hh e => csrH fuel hh e) h
    | some _ => .ok h

/-- Python `str` of the value at an address (used by the f-string of
line 75), through `decodeD`. -/
def pyStrH (fuel : Nat) (h : Heap) (a : Nat) : Except String String :=
  match decodeD fuel h a with
  | some d => .ok (pyStr d)
  | none => .error "fuel"

/-- Python iteration over the value at an address: sequences yield
their element addresses; strings and dicts allocate their
one-character strings respectively their keys; other values raise
`TypeError`. -/
def pyIterH (h : Heap) (a : Nat) : Except String (Heap × List Nat) :=
  match h[a]? with
  | some (.harr items) => .ok (h, items)
  | some (.hstr s) =>
    .ok (s.data.foldl (fun (acc : Heap × List Nat) c =>
      ((acc.1 ++ [HVal.hstr (String.singleton c)]), acc.2 ++ [acc.1.length]))
      (h, []))
  | some (.hobj fields) =>
    .ok (fields.foldl (fun (acc : Heap × List Nat) p =>
      ((acc.1 ++ [HVal.hstr p.1]), acc.2 ++ [acc.1.length])) (h, []))
  | some _ => .error "TypeError"
  | none => .error "bad address"

/-- One optional copied entry, sharing the input address
(`new_spec[key] = spec[key]`). -/
def copyFieldN (fs : List (String × Nat)) (key : String) : List (String × Nat) :=
  match lookupKeyN fs key with
  | some a => [(key, a)]
  | none => []

def copyFieldAsN (fs : List (String × Nat)) (src dst : String) :
    List (String × Nat) :=
  match lookupKeyN fs src with
  | some a => [(dst, a)]
  | none => []

/-- The `servers` construction of lines 69-75 on the heap: the default
`["http"]` list of `spec.get("schemes", ["http"])` is freshly
allocated (the argument expression is always evaluated), and each loop
iteration allocates one url string and one server dict. -/
def serversHeap (fuel : Nat) (h : Heap) (fs : List (String × Nat)) :
    Except String (Heap × List Nat) :=
  if hasKeyN fs "host" || hasKeyN fs "basePath" || hasKeyN fs "schemes" then
    let (ha, aHttp) := halloc h (.hstr "http")
    let (hb, aDefL) := halloc ha (.harr [aHttp])
    let schemesA := (lookupKeyN fs "schemes").getD aDefL
    match (match lookupKeyN fs "host" with
           | some q => pyStrH fuel hb q
           | none => .ok "localhost") with
    | .error e => .error e
    | .ok hostS =>
      match (match lookupKeyN fs "basePath" with
             | some q => pyStrH fuel hb q
             | none => .ok "") with
      | .error e => .error e
      | .ok baseS =>
        match pyIterH hb schemesA with
        | .error e => .error e
        | .ok (hc, items) =>
          items.foldlM (fun (acc : Heap × List Nat) e => do
            let sS ← pyStrH fuel acc.1 e
            let (hh1, aU) := halloc acc.1 (.hstr (sS ++ "://" ++ hostS ++ baseS))
            let (hh2, aO) := halloc hh1 (.hobj [("url", aU)])
            pure (hh2, acc.2 ++ [aO])) (hc, [])
  else .ok (h, [])

/-- The `new_spec` fields of lines 53-109 on the heap, sharing the
input addresses for every copied entry; returns the heap after the
allocations together with the field list.  The default `info` dict of
line 55 is always allocated (Python evaluates the `get` default
eagerly) and used only when `info` is absent. -/
def preSpecH (fuel : Nat) (h : Heap) (fs : List (String × Nat)) :
    Except String (Heap × List (String × Nat)) :=
  let (h1, aOpenapi) := halloc h (.hstr "3.0.0")
  let (h2, aT) := halloc h1 (.hstr "API")
  let (h3, aV) := halloc h2 (.hstr "1.0.0")
  let (h4, aDef) := halloc h3 (.hobj [("title", aT), ("version", aV)])
  let aInfo := (lookupKeyN fs "info").getD aDef
  match serversHeap fuel h4 fs with
  | .error e => .error e
  | .ok (h5, serverAs) =>
    let (h6, b1) :=
      if serverAs.isEmpty then (h5, ([] : List (String × Nat)))
      else
        let (h6', aServers) := halloc h5 (.harr serverAs)
        (h6', [("servers", aServers)])
    let comps := copyFieldAsN fs "definitions" "schemas"
      ++ copyFieldAsN fs "parameters" "parameters"
      ++ copyFieldAsN fs "responses" "responses"
      ++ copyFieldAsN fs "securityDefinitions" "securitySchemes"
    let (h7, b2) :=
      if comps.isEmpty then (h6, ([] : List (String × Nat)))
      else
        let (h7', aComps) := halloc h6 (.hobj comps)
        (h7', [("components", aComps)])
    .ok (h7,
      [("openapi", aOpenapi), ("info", aInfo)]
      ++ copyFieldN fs "externalDocs"
      ++ copyFieldN fs "tags"
      ++ copyFieldN fs "security"
      ++ b1 ++ b2
      ++ copyFieldN fs "paths"
      ++ fs.filter (fun p => pyStartsWith p.1 "x-"))

/-- `convert_spec` on the heap (lines 39-114): passthrough returns the
input address itself; otherwise the new dict node is allocated and the
in-place reference rewrite runs over it, reaching the shared input
sub-trees. -/
def convert_spec_heap (fuel : Nat) (h : Heap) (a : Nat) :
    Except String (Heap × Nat) :=
  match h[a]? with
  | none => .error "bad address"
  | some (.hobj fs) =>
    if hasKeyN fs "openapi" then .ok (h, a)
    else if !hasKeyN fs "swagger" then .ok (h, a)
    else
      match preSpecH fuel h fs with
      | .error e => .error e
      | .ok (h1, newFields) =>
        let (h2, aNew) := halloc h1 (.hobj newFields)
        match csrH fuel h2 aNew with
        | .error e => .error e
        | .ok h3 => .ok (h3, aNew)
  | some _ => .ok (h, a)

/-- The comparison `converted == data` of lines 131-134, as the script
performs it: both sides are read from the heap as it stands after the
conversion, i.e. after the in-place rewrite has mutated the input. -/
def heapConvEq (fuel : Nat) (h : Heap) (a : Nat) : Except String Bool :=
  match convert_spec_heap fuel h a with
  | .error e => .error e
  | .ok (h', b) =>
    match decodeD fuel h' b, decodeD fuel h' a with
    | some conv, some data => .ok (decide (conv = data))
    | _, _ => .error "fuel"

/-! ### The rewrite mutates in place: node identity is preserved -/

/-- One field of a dict node after the rewrite: same key, and the same
address unless the key is `$ref`. -/
def fieldRel (p q : String × Nat) : Prop :=
  q.1 = p.1 ∧ (p.1 ≠ "$ref" → q.2 = p.2)

/-- A node after the rewrite: identical, except that a dict node may
have had its `$ref` entries redirected to fresh strings. -/
def hvalRel : HVal → HVal → Prop
  | .hobj fs, v' => ∃ fs', v' = .hobj fs' ∧ List.Forall₂ fieldRel fs fs'
  | v, v' => v' = v

/-- The heap after the rewrite: every pre-existing address still holds
the same node up to `$ref` redirection; new nodes are only appended. -/
def heapRel (h h' : Heap) : Prop :=
  h.length ≤ h'.length ∧
    ∀ (i : Nat) (v : HVal), h[i]? = some v →
      ∃ v', h'[i]? = some v' ∧ hvalRel v v'

theorem fieldRel_refl (p : String × Nat) : fieldRel p p := ⟨rfl, fun _ => rfl⟩

theorem fieldRel_trans {p q r : String × Nat} (h1 : fieldRel p q)
    (h2 : fieldRel q r) : fieldRel p r := by
  refine ⟨h2.1.trans h1.1, fun hne => ?_⟩
  have hq : q.1 ≠ "$ref" := by rw [h1.1]; exact hne
  rw [h2.2 hq, h1.2 hne]

theorem forall₂_fieldRel_refl (l : List (String × Nat)) :
    List.Forall₂ fieldRel l l :=
  List.forall₂_same.mpr fun p _ => fieldRel_refl p

theorem forall₂_fieldRel_trans :
    ∀ {a b c : List (String × Nat)}, List.Forall₂ fieldRel a b →
      List.Forall₂ fieldRel b c → List.Forall₂ fieldRel a c := by
  intro a b c h1
  induction h1 generalizing c with
  | nil =>
    intro h2
    cases h2
    exact .nil
  | cons hab h1' ih =>
    intro h2
    cases h2 with
    | cons hbc h2' => exact .cons (fieldRel_trans hab hbc) (ih h2')

theorem hvalRel_refl (v : HVal) : hvalRel v v := by
  cases v with
  | hobj fs => exact ⟨fs, rfl, forall₂_fieldRel_refl fs⟩
  | hstr s => rfl
  | hnum n => rfl
  | hbool b => rfl
  | hnull => rfl
  | harr items => rfl

theorem hvalRel_trans {a b c : HVal} (h1 : hvalRel a b) (h2 : hvalRel b c) :
    hvalRel a c := by
  cases a with
  | hobj fs =>
    obtain ⟨fs', rfl, hf⟩ := h1
    obtain ⟨fs'', rfl, hf'⟩ := h2
    exact ⟨fs'', rfl, forall₂_fieldRel_trans hf hf'⟩
  | hstr s => cases h1; exact h2
  | hnum n => cases h1; exact h2
  | hbool b => cases h1; exact h2
  | hnull => cases h1; exact h2
  | harr items => cases h1; exact h2

theorem heapRel_refl (h : Heap) : heapRel h h :=
  ⟨le_refl _, fun _ v hv => ⟨v, hv, hvalRel_refl v⟩⟩

theorem heapRel_trans {h1 h2 h3 : Heap} (a : heapRel h1 h2) (b : heapRel h2 h3) :
    heapRel h1 h3 := by
  refine ⟨le_trans a.1 b.1, fun i v hv => ?_⟩
  obtain ⟨v', hv', hr⟩ := a.2 i v hv
  obtain ⟨v'', hv'', hr'⟩ := b.2 i v' hv'
  exact ⟨v'', hv'', hvalRel_trans hr hr'⟩

theorem heapRel_append (h : Heap) (l : Heap) : heapRel h (h ++ l) := by
  refine ⟨by simp, fun i v hv => ?_⟩
  have hi : i < h.length := by
    by_contra hni
    rw [List.getElem?_eq_none (by omega)] at hv
    cases hv
  refine ⟨v, ?_, hvalRel_refl v⟩
  rw [List.getElem?_append_left hi]
  exact hv

theorem setKeyN_forall₂ (fs : List (String × Nat)) (x : Nat) :
    List.Forall₂ fieldRel fs (setKeyN fs "$ref" x) := by
  induction fs with
  | nil => exact .nil
  | cons p rest ih =>
    obtain ⟨k, a⟩ := p
    simp only [setKeyN]
    by_cases hk : k = "$ref"
    · rw [if_pos hk]
      exact .cons ⟨rfl, fun hne => absurd hk hne⟩ (forall₂_fieldRel_refl rest)
    · rw [if_neg hk]
      exact .cons (fieldRel_refl _) ih

theorem heapRel_setRef {h : Heap} {a : Nat} {fs : List (String × Nat)} {x : Nat}
    (hget : h[a]? = some (.hobj fs)) :
    heapRel h (h.set a (.hobj (setKeyN fs "$ref" x))) := by
  refine ⟨by simp, fun i v hv => ?_⟩
  by_cases hia : i = a
  · subst hia
    rw [hget] at hv
    cases hv
    have hlt : i < h.length := by
      by_contra hni
      rw [List.getElem?_eq_none (by omega)] at hget
      cases hget
    refine ⟨.hobj (setKeyN fs "$ref" x), ?_, ?_⟩
    · rw [List.getElem?_set_self hlt]
    · exact ⟨_, rfl, setKeyN_forall₂ fs x⟩
  · refine ⟨v, ?_, hvalRel_refl v⟩
    rw [List.getElem?_set_ne (fun hh => hia hh.symm)]
    exact hv

theorem foldlM_heapRel {α : Type} {f : Heap → α → Except String Heap}
    (hf : ∀ hh hh' x, f hh x = .ok hh' → heapRel hh hh') :
    ∀ (l : List α) (h h' : Heap), l.foldlM f h = .ok h' → heapRel h h' := by
  intro l
  induction l with
  | nil =>
    intro h h' hh
    cases hh
    exact heapRel_refl h
  | cons x rest ih =>
    intro h h' hh
    cases hfx : f h x with
    | error e =>
      exfalso
      have : (x :: rest).foldlM f h = .error e := by
        simp only [List.foldlM_cons, hfx]
        rfl
      rw [this] at hh
      cases hh
    | ok h1 =>
      have hrest : rest.foldlM f h1 = .ok h' := by
        have : (x :: rest).foldlM f h = rest.foldlM f h1 := by
          simp only [List.foldlM_cons, hfx]
          rfl
        rw [← this]
        exact hh
      exact heapRel_trans (hf h h1 x hfx) (ih h1 h' hrest)

/-- The in-place reference rewrite preserves every node of the heap it
is given, up to redirecting `$ref` entries of dict nodes to freshly
appended strings: no object is replaced or copied, so every sub-tree
shared between the input and the converted output is mutated through
either of them. -/
theorem csrH_heapRel :
    ∀ (fuel : Nat) (a : Nat) (h h' : Heap),
      csrH fuel h a = .ok h' → heapRel h h' := by
  intro fuel
  induction fuel with
  | zero =>
    intro a h h' hcs
    cases hcs
  | succ n ih =>
    intro a h h' hcs
    have step : ∀ (hh hh' : Heap) (p : String × Nat),
        csrH n hh p.2 = .ok hh' → heapRel hh hh' :=
      fun hh hh' p hp => ih p.2 hh hh' hp
    have stepA : ∀ (hh hh' : Heap) (e : Nat),
        csrH n hh e = .ok hh' → heapRel hh hh' :=
      fun hh hh' e hp => ih e hh hh' hp
    cases hget : h[a]? with
    | none => simp [csrH, hget] at hcs
    | some v =>
      cases v with
      | hobj fs =>
        simp only [csrH, hget] at hcs
        cases hlk : lookupKeyN fs "$ref" with
        | none =>
          rw [hlk] at hcs
          exact foldlM_heapRel step fs h h' hcs
        | some rA =>
          simp only [hlk] at hcs
          cases hgr : h[rA]? with
          | none => simp [hgr] at hcs
          | some rv =>
            simp only [hgr] at hcs
            by_cases htr : hTruthy rv = false
            · rw [if_pos htr] at hcs
              exact foldlM_heapRel step fs h h' hcs
            · rw [if_neg htr] at hcs
              cases rv with
              | hstr s =>
                have halt : a < h.length := by
                  by_contra hni
                  rw [List.getElem?_eq_none (by omega)] at hget
                  cases hget
                have h01 : heapRel h (h ++ [HVal.hstr (convertRefStr s)]) :=
                  heapRel_append h _
                have hget1 : (h ++ [HVal.hstr (convertRefStr s)])[a]? =
                    some (.hobj fs) := by
                  rw [List.getElem?_append_left halt]
                  exact hget
                have h12 : heapRel (h ++ [HVal.hstr (convertRefStr s)])
                    ((h ++ [HVal.hstr (convertRefStr s)]).set a
                      (.hobj (setKeyN fs "$ref" h.length))) :=
                  heapRel_setRef hget1
                have h23 := foldlM_heapRel step (setKeyN fs "$ref" h.length)
                  _ h' hcs
                exact heapRel_trans (heapRel_trans h01 h12) h23
              | hnum m => cases hcs
              | hbool b => cases hcs
              | hnull => cases hcs
              | harr items => cases hcs
              | hobj gs => cases hcs
      | harr items =>
        simp only [csrH, hget] at hcs
        exact foldlM_heapRel stepA items h h' hcs
      | hstr s =>
        simp only [csrH, hget] at hcs
        cases hcs
        exact heapRel_refl h
      | hnum m =>
        simp only [csrH, hget] at hcs
        cases hcs
        exact heapRel_refl h
      | hbool b =>
        simp only [csrH, hget] at hcs
        cases hcs
        exact heapRel_refl h
      | hnull =>
        simp only [csrH, hget] at hcs
        cases hcs
        exact heapRel_refl h

/-! ### A concrete conversion exhibiting the sharing and the mutation -/

/-- A parsed legacy document laid out on the heap:
`{swagger: "2.0", definitions: {A: {$ref: "#/definitions/B"}},
paths: {}, x-n: 1}`, rooted at address 6. -/
def exHeap0 : Heap :=
  [.hstr "2.0",
   .hstr "#/definitions/B",
   .hobj [("$ref", 1)],
   .hobj [("A", 2)],
   .hobj [],
   .hnum 1,
   .hobj [("swagger", 0), ("definitions", 3), ("paths", 4), ("x-n", 5)]]

/-- The heap after `convert_spec_heap` on `exHeap0` at address 6: the
seven input nodes are still at their addresses, node 2 has had its
`$ref` entry redirected to the fresh string at address 13, and the
synthesized nodes (openapi string, default info, components, the new
top-level dict at 12) are appended. -/
def exHeapFinal : Heap :=
  [.hstr "2.0",
   .hstr "#/definitions/B",
   .hobj [("$ref", 13)],
   .hobj [("A", 2)],
   .hobj [],
   .hnum 1,
   .hobj [("swagger", 0), ("definitions", 3), ("paths", 4), ("x-n", 5)],
   .hstr "3.0.0",
   .hstr "API",
   .hstr "1.0.0",
   .hobj [("title", 8), ("version", 9)],
   .hobj [("schemas", 3)],
   .hobj [("openapi", 7), ("info", 10), ("components", 11), ("paths", 4), ("x-n", 5)],
   .hstr "#/components/schemas/B"]

/-- `exHeap0` read back at the root before conversion: the pristine parse. -/
def exPristine : Doc :=
  .obj [("swagger", .str "2.0"),
        ("definitions", .obj [("A", .obj [("$ref", .str "#/definitions/B")])]),
        ("paths", .obj []),
        ("x-n", .num 1)]

/-- The ORIGINAL root address read back after conversion: the `$ref`
inside the input object has been rewritten by the in-place traversal. -/
def exMutated : Doc :=
  .obj [("swagger", .str "2.0"),
        ("definitions", .obj [("A", .obj [("$ref", .str "#/components/schemas/B")])]),
        ("paths", .obj []),
        ("x-n", .num 1)]

/-- Claim C9: when the converter actually converts a legacy document it
mutates its input.  First conjunct: the reference rewrite works in
place — whenever `csrH` succeeds, every pre-existing heap address
still holds the same node, up to redirection of `$ref` entries of dict
nodes, and new nodes are only appended, so the rewrite reaches the
input through every shared sub-tree.  The remaining conjuncts run the
heap-level converter on a concrete legacy document: the conversion
succeeds with the new root at address 12; the output dict stores the
very addresses of the input's `paths` (4), `x-` extension (5) and
`definitions` (3, under `components.schemas`) sub-trees, so those
sub-trees are shared by reference with the input dict at address 6;
reading the ORIGINAL root address back after conversion yields the
document with its `$ref` rewritten, different from the pristine parse;
and the deep-equality check of `convert_file`, which reads both sides
from the post-conversion heap, therefore compares the converted result
against this post-mutation input. -/
theorem claim_C9 :
    (∀ (fuel a : Nat) (h h' : Heap), csrH fuel h a = .ok h' → heapRel h h') ∧
    convert_spec_heap 20 exHeap0 6 = .ok (exHeapFinal, 12) ∧
    exHeap0[6]? =
      some (.hobj [("swagger", 0), ("definitions", 3), ("paths", 4), ("x-n", 5)]) ∧
    exHeapFinal[12]? =
      some (.hobj
        [("openapi", 7), ("info", 10), ("components", 11), ("paths", 4), ("x-n", 5)]) ∧
    exHeapFinal[11]? = some (.hobj [("schemas", 3)]) ∧
    decodeD 20 exHeap0 6 = some exPristine ∧
    decodeD 20 exHeapFinal 6 = some exMutated ∧
    exMutated ≠ exPristine ∧
    heapConvEq 20 exHeap0 6 = .ok false :=
  ⟨fun fuel a h h' hcs => csrH_heapRel fuel a h h' hcs,
   rfl, rfl, rfl, rfl, rfl, rfl, by decide, rfl⟩

/-- The heap produced by running the reference rewrite alone on the
inner schema node of `exHeap0` (address 2): the node is mutated in
place, the rewritten string is appended. -/
def exCsrOut : Heap :=
  [.hstr "2.0",
   .hstr "#/definitions/B",
   .hobj [("$ref", 7)],
   .hobj [("A", 2)],
   .hobj [],
   .hnum 1,
   .hobj [("swagger", 0), ("definitions", 3), ("paths", 4), ("x-n", 5)],
   .hstr "#/components/schemas/B"]

/-- Witness for the universal conjunct of claim C9 at a concrete
input. -/
theorem claim_C9_witness : heapRel exHeap0 exCsrOut :=
  claim_C9.1 20 2 exHeap0 exCsrOut rfl

end OpenapiConv
